
import Mathlib

/-!
Verification development for the DGtal shortest-path / tangency core.

The development shallowly embeds, in Lean 4:
  * the point deduplication loop of `examples/geometry/volumes/shortestPaths3D.cpp`
    (the Point Index Registry),
  * the tangency / visibility oracle (modelled from the spec, the geometric
    predicate `TangencyComputer` is not part of the provided sources),
  * the single-source shortest-path engine (`ShortestPaths`, modelled from the
    spec's state-machine description, §4.4),
  * the bidirectional driver loop of `shortestPaths3D.cpp` (lines 257-282),
  * the `checkVoronoiL2` validation predicate of `testVoronoiMap.cpp` together
    with a nearest-site Voronoi map modelled from the spec.
-/

namespace DGtalSpec

/-! ### Lattice points -/

/-- A 3D integer lattice point, as used by `shortestPaths3D.cpp` (`Z3i::Point`). -/
abbrev Pt : Type := ℤ × ℤ × ℤ

/-- Componentwise subtraction of lattice points. -/
def psub (a b : Pt) : Pt := (a.1 - b.1, a.2.1 - b.2.1, a.2.2 - b.2.2)

/-- Dot product of lattice points seen as vectors. -/
def pdot (a b : Pt) : ℤ := a.1 * b.1 + a.2.1 * b.2.1 + a.2.2 * b.2.2

/-- Squared Euclidean norm of a lattice vector. -/
def pnorm2 (a : Pt) : ℤ := pdot a a

/-- Squared Euclidean distance between two lattice points, exactly the
inner accumulation loops of `checkVoronoiL2` in `testVoronoiMap.cpp`
(`d += (p[i]-psite[i])*(p[i]-psite[i])`). -/
def sqDist (p q : Pt) : ℤ := pnorm2 (psub p q)

/-! ### Point Index Registry

`shortestPaths3D.cpp` (lines 145-164) deduplicates interior boundary points
into a dense index space: a vector `points` plus a map `point2idx`; a point
already seen keeps its index, a new point receives the next integer.
The spec (§4.1) additionally names the operations `register` and `pointAt`.
The registry state is fully described by the vector of points in
first-occurrence order: `point2idx` maps a point to the position of its
(unique) occurrence in that vector. -/



/-- The Point Index Registry: the dense `points` vector of
`shortestPaths3D.cpp`, in first-occurrence order. -/
structure Registry where
  points : List Pt
deriving DecidableEq, Repr

/-- Position of the first occurrence of a point in the registry vector:
the value stored in the `point2idx` map of `shortestPaths3D.cpp`. -/
def firstIdx (l : List Pt) (p : Pt) : Nat :=
  match l with
  | [] => 0
  | q :: t => if q = p then 0 else firstIdx t p + 1

/-- Modelled from the spec: `register(point) → Index` of the Point Index
Registry (§4.1), whose implementation (inside `TangencyComputer`) is not part
of the provided sources; it returns the existing index if the point was seen
before, otherwise appends the point and returns the next integer, exactly as
the deduplication loop of `shortestPaths3D.cpp` lines 155-163 does inline
with `point2idx.find` / `points.push_back` / `idx++`. -/
def Registry.registerPt (R : Registry) (p : Pt) : Registry × Nat :=
  if p ∈ R.points then (R, firstIdx R.points p)
  else (⟨R.points ++ [p]⟩, R.points.length)

/-- Modelled from the spec: `pointAt(Index) → point` (§4.1), the inverse
lookup, defined for all indices in range. -/
def Registry.pointAt (R : Registry) (i : Nat) : Option Pt := R.points.get? i

/-- Batch construction of the registry from an input sequence of points,
mirroring the deduplication loop over the surface traversal in
`shortestPaths3D.cpp` (lines 148-164). -/
def Registry.ofPoints (ps : List Pt) : Registry :=
  ps.foldl (fun R p => (R.registerPt p).1) ⟨[]⟩

/-- Clamp a rational to the unit interval `[0, 1]`. -/
def clamp01 (t : ℚ) : ℚ := max 0 (min 1 t)

/-- Squared distance from the point `v` to the segment `[0, u]`, scalar form:
the segment parameter of the orthogonal projection is clamped to `[0,1]`. -/
def segSqDistQ (u1 u2 u3 v1 v2 v3 : ℚ) : ℚ :=
  (v1 - clamp01 ((v1*u1 + v2*u2 + v3*u3) / (u1*u1 + u2*u2 + u3*u3)) * u1)^2 +
  (v2 - clamp01 ((v1*u1 + v2*u2 + v3*u3) / (u1*u1 + u2*u2 + u3*u3)) * u2)^2 +
  (v3 - clamp01 ((v1*u1 + v2*u2 + v3*u3) / (u1*u1 + u2*u2 + u3*u3)) * u3)^2

/-- Squared Euclidean distance from lattice point `q` to the straight
segment between lattice points `a` and `b`. -/
def segSqDist (a b q : Pt) : ℚ :=
  segSqDistQ ((b.1 - a.1 : ℤ) : ℚ) ((b.2.1 - a.2.1 : ℤ) : ℚ)
    ((b.2.2 - a.2.2 : ℤ) : ℚ) ((q.1 - a.1 : ℤ) : ℚ) ((q.2.1 - a.2.1 : ℤ) : ℚ)
    ((q.2.2 - a.2.2 : ℤ) : ℚ)

/-- The list of integers from `lo` to `hi` inclusive. -/
def intRange (lo hi : ℤ) : List ℤ :=
  (List.range (hi + 1 - lo).toNat).map (fun k => lo + (k : ℤ))

/-- All lattice points of the axis-aligned bounding box of `a` and `b`,
inflated by the margin `r` in every direction. -/
def bboxPts (r : ℤ) (a b : Pt) : List Pt :=
  (intRange (min a.1 b.1 - r) (max a.1 b.1 + r)).flatMap (fun x =>
    (intRange (min a.2.1 b.2.1 - r) (max a.2.1 b.2.1 + r)).flatMap (fun y =>
      (intRange (min a.2.2 b.2.2 - r) (max a.2.2 b.2.2 + r)).map
        (fun z => ((x, y, z) : Pt))))

/-- Modelled from the spec: the tangency / visibility oracle
`isTangent(i, j, opt)` (§4.2); the geometric predicate of
`TangencyComputer` is not in the provided sources.  The chord between `a`
and `b` is tangent when every lattice point within distance `opt` of the
straight segment `[a, b]` (searched inside the bounding box inflated by
`⌈opt⌉`) belongs to the digital shape `S` — a pure, deterministic
predicate. -/
def isTangent (S : Pt → Bool) (opt : ℚ) (a b : Pt) : Bool :=
  (bboxPts ⌈opt⌉ a b).all
    (fun q => !(decide (segSqDist a b q ≤ opt * opt)) || S q)

/-- The oracle lifted to registry indices, as the spec's
`isTangent(i, j, opt)` over the Point Index Registry. -/
def Registry.isTangentIdx (R : Registry) (S : Pt → Bool) (opt : ℚ)
    (i j : Nat) : Bool :=
  match R.pointAt i, R.pointAt j with
  | some a, some b => isTangent S opt a b
  | _, _ => false

/-- The validation predicate of `testVoronoiMap.cpp`: true iff for every
domain point no site is strictly closer (in squared L2 distance) than the
site assigned by `voro`. -/
def checkVoronoiL2 (domainL : List Pt) (sites : List Pt) (voro : Pt → Pt) :
    Bool :=
  domainL.all (fun p =>
    sites.all (fun s => !(decide (sqDist p s < sqDist p (voro p)))))

/-- Modelled from the spec: the separable `VoronoiMap` computation
(`DGtal/geometry/volumes/distance/VoronoiMap.h`), absent from the provided
sources; the spec describes it as the Voronoi map of the input sites for the
L2 metric, i.e. each domain point is assigned a site of minimal (squared)
Euclidean distance.  Ties are broken in favour of the earlier site. -/
def voroMap (sites : List Pt) (p : Pt) : Pt :=
  match sites with
  | [] => p
  | s :: rest =>
      rest.foldl (fun best s' => if sqDist p s' < sqDist p best then s' else best) s

/-- A frontier / settle entry `(Index, ancestor, tentative distance)`
(spec §3). -/
abbrev SPNode (W : Type) := Nat × Nat × W



/-- The engine phases of the spec's state machine (§4.4):
`Unseeded → Active → Finished`. -/
inductive Phase
  | unseeded
  | active
  | finished
deriving DecidableEq, Repr



/-- The error kinds of the spec (§7). -/
inductive SPErr
  | invalidState
  | notVisited
  | indexOutOfRange
deriving DecidableEq, Repr

/-- The injected implicit graph (spec §4.3): `n` indexed points, an
adjacency ("tangency") predicate and a weight function. -/
structure Graph (W : Type) where
  n : Nat
  adj : Nat → Nat → Bool
  w : Nat → Nat → W

/-- `neighbors(i)`: every other point `j` with `adj i j`, paired with the
edge weight (spec §4.3). -/
def Graph.neighbors {W : Type} (G : Graph W) (i : Nat) : List (Nat × W) :=
  (List.range G.n).filterMap
    (fun j => if j ≠ i ∧ G.adj i j = true then some (j, G.w i j) else none)



/-- The search state owned by one engine instance (spec §3). -/
structure SPState (W : Type) where
  phase : Phase
  src : Nat
  tent : List (WithTop W)
  hist : List (SPNode W)
  frontier : List (SPNode W)
deriving DecidableEq, Repr

variable {W : Type} [LinearOrderedAddCommMonoid W]

/-- `makeShortestPaths` (spec §4.3): a fresh, unseeded search state over `n`
points; every internal distance starts at the infinity sentinel. -/
def makeShortestPaths (W : Type) [LinearOrderedAddCommMonoid W] (n : Nat) :
    SPState W :=
  ⟨Phase.unseeded, 0, List.replicate n ⊤, [], []⟩

/-- Has index `i` been settled in the history `h`? -/
def visitedIn (h : List (SPNode W)) (i : Nat) : Bool :=
  h.any (fun e => e.1 == i)

/-- The settled distance of index `i` recorded in the history, if any. -/
def histD (h : List (SPNode W)) (i : Nat) : Option W :=
  (h.find? (fun e => e.1 == i)).map (fun e => e.2.2)

/-- Distance of the most recent settle event (`0` before the first one). -/
def lastD (h : List (SPNode W)) : W :=
  ((h.head?).map (fun e => e.2.2)).getD 0

/-- `isVisited(i)` (spec §4.4). -/
def SPState.isVisited (s : SPState W) (i : Nat) : Bool := visitedIn s.hist i

/-- `infinity()` (spec §4.4): the fixed infinity sentinel. -/
def SPState.infinity (_ : SPState W) : WithTop W := ⊤

/-- `distance(i)` (spec §4.4): the settled distance of `i`, or the
`infinity()` sentinel if `i` is unvisited; a total query, it never fails. -/
def SPState.distance (s : SPState W) (i : Nat) : WithTop W :=
  if s.isVisited i then s.tent.getD i ⊤ else ⊤

/-- `finished()` (spec §4.4): true once in the Finished phase. -/
def SPState.finished (s : SPState W) : Bool := s.phase = Phase.finished

/-- The raw `current()` tuple: the most recently settled node; before the
first settle event its value is unspecified by the spec ("undefined before
the first `expand()`"), here the head of the frontier. -/
def SPState.currentD (s : SPState W) : SPNode W :=
  match s.hist.head? with
  | some e => e
  | none => s.frontier.headD (0, 0, 0)

/-- `current()` (spec §4.4, §7): fails with `InvalidState` before `init`. -/
def SPState.current (s : SPState W) : Except SPErr (SPNode W) :=
  if s.phase = Phase.unseeded then Except.error SPErr.invalidState
  else Except.ok s.currentD

/-- `init(sourceIndex)` (spec §4.4): transitions Unseeded→Active, sets
`distance[source] = 0` and pushes `(source, source, 0)` onto the frontier;
fails with `InvalidState` on a non-Unseeded state. -/
def SPState.init (s : SPState W) (src : Nat) : Except SPErr (SPState W) :=
  if s.phase = Phase.unseeded then
    Except.ok { s with
      phase := Phase.active
      src := src
      tent := s.tent.set src ((0 : W) : WithTop W)
      hist := []
      frontier := [(src, src, 0)] }
  else Except.error SPErr.invalidState

/-- Pop the earliest minimum-key entry whose index is not yet visited
(spec §4.4: the pop of the frontier minimum combined with the lazy-deletion
visited check, under which stale entries are "discarded without side
effects" while `expand` "logically loops until a fresh (unvisited) node is
settled or the frontier is empty"). -/
def popMinFresh (vis : Nat → Bool) :
    List (SPNode W) → Option (SPNode W × List (SPNode W))
  | [] => none
  | e :: Q =>
    match popMinFresh vis Q with
    | none => if vis e.1 then none else some (e, Q)
    | some (m, Q') =>
      if vis e.1 then some (m, e :: Q')
      else if e.2.2 ≤ m.2.2 then some (e, Q) else some (m, e :: Q')

/-- The relaxation loop of `expand()` (spec §4.4): for every neighbor
`(j, w)` with `j` not visited, if `d + w` improves on the tentative
distance of `j`, update it and push `(j, i, d + w)`; stale entries for `j`
are not removed. -/
def relaxList (vis : Nat → Bool) (i : Nat) (d : W) :
    List (Nat × W) → List (WithTop W) → List (SPNode W) →
      List (WithTop W) × List (SPNode W)
  | [], tent, F => (tent, F)
  | (j, wj) :: rest, tent, F =>
    if vis j then relaxList vis i d rest tent F
    else if ((d + wj : W) : WithTop W) < tent.getD j ⊤ then
      relaxList vis i d rest (tent.set j ((d + wj : W) : WithTop W))
        (F ++ [(j, i, d + wj)])
    else relaxList vis i d rest tent F

/-- The settle-and-relax step of `expand()` on the popped fresh entry
`(i, anc, d)` with remaining frontier `Q` (spec §4.4): marks `i` visited,
records `ancestor[i] = anc` and `distance[i] = d` (all carried by the new
head of `hist`), relaxes the neighbors of `i`, discards the stale entries
of the now-visited indices, and transitions to Finished when the frontier
becomes empty after this call. -/
def SPState.expandAux (G : Graph W) (s : SPState W) (i anc : Nat) (d : W)
    (Q : List (SPNode W)) : SPState W :=
  let hist' := (i, anc, d) :: s.hist
  let tf := relaxList (visitedIn hist') i d (G.neighbors i)
    (s.tent.set i ((d : W) : WithTop W)) Q
  let F' := tf.2.filter (fun e => !(visitedIn hist' e.1))
  { phase := if F'.isEmpty then Phase.finished else Phase.active
    src := s.src
    tent := tf.1
    hist := hist'
    frontier := F' }

/-- `expand()` (spec §4.4): valid only in Active, otherwise fails with
`InvalidState`; settles the minimum-distance fresh frontier entry. -/
def SPState.expand (G : Graph W) (s : SPState W) :
    Except SPErr (SPState W) :=
  if s.phase = Phase.active then
    match popMinFresh (fun j => s.isVisited j) s.frontier with
    | none => Except.ok { s with phase := Phase.finished, frontier := [] }
    | some (e, Q) => Except.ok (s.expandAux G e.1 e.2.1 e.2.2 Q)
  else Except.error SPErr.invalidState

/-- Follow ancestor links from `i` towards the source (at most `fuel`
steps). -/
def pathAux (anc : Nat → Nat) (src : Nat) : Nat → Nat → List Nat
  | 0, i => [i]
  | fuel+1, i => if i = src then [i] else i :: pathAux anc src fuel (anc i)

/-- The `ancestor` mapping (spec §3), derived from the settle history. -/
def SPState.ancOf (s : SPState W) (i : Nat) : Nat :=
  match s.hist.find? (fun e => e.1 == i) with
  | some e => e.2.1
  | none => i

/-- `pathToSource(i)` (spec §4.4): the ordered sequence of indices from `i`
back to the source following `ancestor` links (target-to-source order);
requires `isVisited(i)`, otherwise fails with a `NotVisited` error. -/
def SPState.pathToSource (s : SPState W) (i : Nat) :
    Except SPErr (List Nat) :=
  if s.isVisited i then
    Except.ok (pathAux s.ancOf s.src s.hist.length i)
  else Except.error SPErr.notVisited

/-- Total driver step: `expand()` when it succeeds, identity otherwise
(the caller loop of `shortestPaths3D.cpp` only calls `expand` on an
unfinished engine). -/
def expandT (G : Graph W) (s : SPState W) : SPState W :=
  match s.expand G with
  | Except.ok s' => s'
  | Except.error _ => s

/-- `k` driver steps. -/
def stepN (G : Graph W) : Nat → SPState W → SPState W
  | 0, s => s
  | k+1, s => stepN G k (expandT G s)

/-- A freshly created engine seeded at `src`, as done by
`SP.init( start0 )` in `shortestPaths3D.cpp` line 207. -/
def initOn (G : Graph W) (src : Nat) : SPState W :=
  match (makeShortestPaths W G.n).init src with
  | Except.ok s => s
  | Except.error _ => makeShortestPaths W G.n

/-- Total weight of a path, summing the weights of consecutive edges, each
taken from the later (ancestor-side) vertex to the earlier one. -/
def pathCost (G : Graph W) : List Nat → W
  | [] => 0
  | [_] => 0
  | x :: y :: rest => G.w y x + pathCost G (y :: rest)

/-- The splice of the two partial paths of `shortestPaths3D.cpp` lines
273-277: copy `c0` reversed, `pop_back` the duplicated meeting node, then
append `c1`. -/
def splice (c0 c1 : List Nat) : List Nat := c0.reverse.dropLast ++ c1

/-- The bidirectional driver loop of `shortestPaths3D.cpp` lines 263-282:
while neither engine is finished, read the current node `p1` of the second
engine, expand both, and as soon as the first search has visited `p1`,
splice the two partial paths at `p1` and stop. -/
def bidirLoop (G : Graph W) :
    Nat → SPState W → SPState W → Option (List Nat)
  | 0, _, _ => none
  | fuel+1, S0, S1 =>
    if S0.finished || S1.finished then none
    else
      let p1 := S1.currentD.1
      let S0' := expandT G S0
      let S1' := expandT G S1
      if S0'.isVisited p1 then
        match S0'.pathToSource p1, S1'.pathToSource p1 with
        | Except.ok c0, Except.ok c1 => some (splice c0 c1)
        | _, _ => none
      else bidirLoop G fuel S0' S1'

/-- Reachability from the source through the implicit graph's edges. -/
inductive Reach (G : Graph W) (src : Nat) : Nat → Prop
  | base : Reach G src src
  | step : ∀ {i j}, Reach G src i → j < G.n → j ≠ i → G.adj i j = true →
      Reach G src j

/-! ### Basic lemmas about the engine's auxiliary functions -/

/-- Well-formedness of the settle history (most recent first): the oldest
entry is the self-ancestored source settle at distance `0`, and every other
entry's ancestor was settled earlier, over an actual graph edge, with the
recorded distance obtained from the ancestor's distance plus the edge
weight. -/
def ancWell (G : Graph W) : List (SPNode W) → Prop
  | [] => True
  | e :: t =>
    ((t = [] ∧ e.2.1 = e.1 ∧ e.2.2 = 0) ∨
      (∃ e' ∈ t, e'.1 = e.2.1 ∧ G.adj e.2.1 e.1 = true ∧ e.2.1 ≠ e.1 ∧
        e.2.2 = e'.2.2 + G.w e.2.1 e.1)) ∧
    ancWell G t

/-- The Dijkstra invariant of an engine state that has been seeded
(Active or Finished), tying together the spec's `visited`, `distance`,
`ancestor`, `frontier` and `current` bookkeeping (§3, §4.4). -/
structure Inv (G : Graph W) (s : SPState W) : Prop where
  tlen : s.tent.length = G.n
  srcLt : s.src < G.n
  phaseOk : s.phase = Phase.active ∨ s.phase = Phase.finished
  finIff : s.phase = Phase.finished ↔ s.frontier = []
  histNe : s.phase = Phase.finished → s.hist ≠ []
  lastSrc : ∀ e, s.hist.getLast? = some e → e.1 = s.src
  nodup : (s.hist.map (fun e => e.1)).Nodup
  histLt : ∀ e ∈ s.hist, e.1 < G.n
  histTent : ∀ e ∈ s.hist, s.tent.getD e.1 ⊤ = ((e.2.2 : W) : WithTop W)
  ancW : ancWell G s.hist
  histMono : List.Pairwise (fun e f => f.2.2 ≤ e.2.2) s.hist
  histReach : ∀ e ∈ s.hist, Reach G s.src e.1
  frLt : ∀ f ∈ s.frontier, f.1 < G.n
  frFresh : ∀ f ∈ s.frontier, visitedIn s.hist f.1 = false
  frTent : ∀ f ∈ s.frontier, s.tent.getD f.1 ⊤ ≤ ((f.2.2 : W) : WithTop W)
  frLast : ∀ f ∈ s.frontier, lastD s.hist ≤ f.2.2
  frSrc : ∀ f ∈ s.frontier,
      (s.hist = [] ∧ f = (s.src, s.src, 0)) ∨
      (∃ da, histD s.hist f.2.1 = some da ∧ G.adj f.2.1 f.1 = true ∧
        f.2.1 ≠ f.1 ∧ f.2.2 = da + G.w f.2.1 f.1)
  frReach : ∀ f ∈ s.frontier, Reach G s.src f.1
  cover : ∀ e ∈ s.hist, ∀ j, j < G.n → j ≠ e.1 → G.adj e.1 j = true →
      visitedIn s.hist j = true ∨ ∃ f ∈ s.frontier, f.1 = j
  tentLink : ∀ j, visitedIn s.hist j = false → s.tent.getD j ⊤ ≠ ⊤ →
      ∃ f ∈ s.frontier, f.1 = j ∧ ((f.2.2 : W) : WithTop W) = s.tent.getD j ⊤
  tentReach : ∀ j, s.tent.getD j ⊤ ≠ ⊤ → Reach G s.src j

/-- A concrete 5-point chain graph `0 - 1 - 2 - 3 - 4` with unit integer
weights: a synthetic fixed-adjacency oracle in the spirit of the spec's
testable scenarios (§8, §9). -/
def chainG : Graph ℤ :=
  ⟨5, fun i j => (i + 1 == j) || (j + 1 == i), fun _ _ => 1⟩

deriving instance DecidableEq for Except

/-! ### The claims -/

theorem firstIdx_get? {l : List Pt} {p : Pt} (h : p ∈ l) :
    l.get? (firstIdx l p) = some p := by
  induction l with
  | nil => cases h
  | cons q t ih =>
    rcases List.mem_cons.mp h with h | h
    · subst h; simp [firstIdx]
    · by_cases hq : q = p
      · subst hq; simp [firstIdx]
      · simpa [firstIdx, hq] using ih h

theorem firstIdx_of_get {l : List Pt} (hnd : l.Nodup) (i : Fin l.length) :
    firstIdx l (l.get i) = i.1 := by
  induction l with
  | nil => exact absurd i.2 (by simp)
  | cons q t ih =>
    rcases i with ⟨iv, hiv⟩
    cases iv with
    | zero => simp [firstIdx]
    | succ k =>
      have hk : k < t.length := Nat.lt_of_succ_lt_succ hiv
      have hmem : t.get ⟨k, hk⟩ ∈ t := List.get_mem _ _ _
      have hq : q ≠ t.get ⟨k, hk⟩ :=
        fun h => (List.nodup_cons.mp hnd).1 (h ▸ hmem)
      have : (q :: t).get ⟨k + 1, hiv⟩ = t.get ⟨k, hk⟩ := rfl
      rw [this, firstIdx, if_neg hq, ih (List.nodup_cons.mp hnd).2 ⟨k, hk⟩]

theorem Registry.registerPt_points (R : Registry) (p : Pt) :
    ((R.registerPt p).1).points =
      if p ∈ R.points then R.points else R.points ++ [p] := by
  by_cases hp : p ∈ R.points <;> simp [Registry.registerPt, hp]

theorem Registry.ofPoints_mem (ps : List Pt) (q : Pt) :
    q ∈ (Registry.ofPoints ps).points ↔ q ∈ ps := by
  have aux : ∀ (l : List Pt) (R : Registry),
      q ∈ (l.foldl (fun R p => (R.registerPt p).1) R).points ↔
        q ∈ R.points ∨ q ∈ l := by
    intro l
    induction l with
    | nil => intro R; simp
    | cons p t ih =>
      intro R
      rw [List.foldl_cons, ih]
      by_cases hp : p ∈ R.points
      · simp only [Registry.registerPt_points, hp, if_pos]
        constructor
        · rintro (h | h)
          · exact Or.inl h
          · exact Or.inr (List.mem_cons_of_mem _ h)
        · rintro (h | h)
          · exact Or.inl h
          · rcases List.mem_cons.mp h with h | h
            · exact Or.inl (h ▸ hp)
            · exact Or.inr h
      · simp only [Registry.registerPt_points, hp, if_neg, not_false_iff,
          List.mem_append, List.mem_singleton, List.mem_cons]
        tauto
  rw [Registry.ofPoints, aux]
  simp

theorem Registry.ofPoints_nodup (ps : List Pt) :
    (Registry.ofPoints ps).points.Nodup := by
  have aux : ∀ (l : List Pt) (R : Registry), R.points.Nodup →
      (l.foldl (fun R p => (R.registerPt p).1) R).points.Nodup := by
    intro l
    induction l with
    | nil => intro R h; exact h
    | cons p t ih =>
      intro R h
      rw [List.foldl_cons]
      apply ih
      rw [Registry.registerPt_points]
      by_cases hp : p ∈ R.points
      · simpa [hp] using h
      · simp only [hp, if_neg, not_false_iff]
        exact List.Nodup.append h (List.nodup_singleton p)
          (by simpa using fun h' => hp h')
  exact aux ps ⟨[]⟩ List.nodup_nil

theorem Registry.ofPoints_concat (ps : List Pt) (p : Pt) :
    (Registry.ofPoints (ps ++ [p])).points =
      if p ∈ ps then (Registry.ofPoints ps).points
      else (Registry.ofPoints ps).points ++ [p] := by
  rw [Registry.ofPoints, List.foldl_append]
  rw [List.foldl_cons, List.foldl_nil, Registry.registerPt_points]
  rw [← Registry.ofPoints]
  by_cases hp : p ∈ ps
  · rw [if_pos ((Registry.ofPoints_mem ps p).mpr hp), if_pos hp]
  · rw [if_neg (fun h => hp ((Registry.ofPoints_mem ps p).mp h)), if_neg hp]

/-- C5.  The Point Index Registry deduplicates: registering a seen point
returns its already-assigned index and leaves the registry unchanged,
registering a fresh point assigns the next integer; batch construction keeps
first-occurrence order; the index/point correspondence is a bijection with
`pointAt` as its inverse on in-range indices. -/
theorem claim_C5 (ps : List Pt) (p : Pt) :
    (∀ q, q ∈ (Registry.ofPoints ps).points ↔ q ∈ ps)
    ∧ (Registry.ofPoints ps).points.Nodup
    ∧ (p ∈ ps →
        ((Registry.ofPoints ps).registerPt p).1 = Registry.ofPoints ps ∧
        (Registry.ofPoints ps).pointAt ((Registry.ofPoints ps).registerPt p).2
          = some p)
    ∧ (p ∉ ps →
        ((Registry.ofPoints ps).registerPt p).2
            = (Registry.ofPoints ps).points.length ∧
        ((Registry.ofPoints ps).registerPt p).1.points
            = (Registry.ofPoints ps).points ++ [p])
    ∧ (∀ i : Fin (Registry.ofPoints ps).points.length,
        ((Registry.ofPoints ps).registerPt
            ((Registry.ofPoints ps).points.get i)).2 = i.1)
    ∧ (Registry.ofPoints (ps ++ [p])).points =
        (if p ∈ ps then (Registry.ofPoints ps).points
         else (Registry.ofPoints ps).points ++ [p]) := by
  refine ⟨Registry.ofPoints_mem ps, Registry.ofPoints_nodup ps, ?_, ?_, ?_,
    Registry.ofPoints_concat ps p⟩
  · intro hp
    have hmem : p ∈ (Registry.ofPoints ps).points :=
      (Registry.ofPoints_mem ps p).mpr hp
    constructor
    · simp [Registry.registerPt, hmem]
    · simp only [Registry.registerPt, hmem, if_pos]
      exact firstIdx_get? hmem
  · intro hp
    have hmem : p ∉ (Registry.ofPoints ps).points :=
      fun h => hp ((Registry.ofPoints_mem ps p).mp h)
    constructor
    · simp [Registry.registerPt, hmem]
    · simp [Registry.registerPt, hmem]
  · intro i
    have hmem : (Registry.ofPoints ps).points.get i ∈
        (Registry.ofPoints ps).points := List.get_mem _ _ _
    simp only [Registry.registerPt, hmem, if_pos]
    exact firstIdx_of_get (Registry.ofPoints_nodup ps) i

/-- Witness for C5 at a concrete batch with a duplicate: re-registering the
already-seen point `(1,0,0)` leaves the registry unchanged and `pointAt` of
the returned index recovers the point. -/
theorem claim_C5_witness :
    (((1:ℤ),(0:ℤ),(0:ℤ)) ∈ [((0:ℤ),(0:ℤ),(0:ℤ)), (1,0,0), (0,0,0), (2,0,0)])
    ∧ ((Registry.ofPoints [((0:ℤ),(0:ℤ),(0:ℤ)), (1,0,0), (0,0,0), (2,0,0)]).registerPt
          (1,0,0)).1 = Registry.ofPoints [((0:ℤ),(0:ℤ),(0:ℤ)), (1,0,0), (0,0,0), (2,0,0)]
    ∧ (Registry.ofPoints [((0:ℤ),(0:ℤ),(0:ℤ)), (1,0,0), (0,0,0), (2,0,0)]).pointAt
        ((Registry.ofPoints [((0:ℤ),(0:ℤ),(0:ℤ)), (1,0,0), (0,0,0), (2,0,0)]).registerPt
          (1,0,0)).2 = some (1,0,0) :=
  ⟨by decide,
    (claim_C5 [((0:ℤ),(0:ℤ),(0:ℤ)), (1,0,0), (0,0,0), (2,0,0)] (1,0,0)).2.2.1
      (by decide)⟩

/-! ### Tangency / Visibility Oracle

Modelled from the spec (§4.2): the oracle `isTangent(i, j, opt)` decides
"whether the chord between the two points can serve as a shortest-path edge
without passing outside the digital shape's full convexity neighborhood",
with shape membership an injected predicate and `opt` a secureness
threshold.  The geometric implementation (`TangencyComputer` /
full-convexity testing) is not part of the provided sources, so the chord
criterion is modelled literally from the spec's words: every lattice point
of the bounding box of the two endpoints (inflated by `⌈opt⌉`) lying within
distance `opt` of the straight segment between them must belong to the
shape.  The segment between two points does not depend on the order of its
endpoints, which is the root of the symmetry property. -/

theorem clamp01_one_sub (t : ℚ) : clamp01 (1 - t) = 1 - clamp01 t := by
  simp only [clamp01, max_def, min_def]
  split_ifs <;> linarith

theorem clamp01_zero : clamp01 0 = 0 := by
  simp [clamp01]

theorem segSqDistQ_symm (u1 u2 u3 v1 v2 v3 w1 w2 w3 x1 x2 x3 : ℚ)
    (hu1 : w1 = -u1) (hu2 : w2 = -u2) (hu3 : w3 = -u3)
    (hv1 : x1 = v1 - u1) (hv2 : x2 = v2 - u2) (hv3 : x3 = v3 - u3) :
    segSqDistQ u1 u2 u3 v1 v2 v3 = segSqDistQ w1 w2 w3 x1 x2 x3 := by
  subst hu1 hu2 hu3 hv1 hv2 hv3
  by_cases hN : u1*u1 + u2*u2 + u3*u3 = 0
  · have h1 : u1 = 0 := by nlinarith [mul_self_nonneg u1, mul_self_nonneg u2, mul_self_nonneg u3]
    have h2 : u2 = 0 := by nlinarith [mul_self_nonneg u1, mul_self_nonneg u2, mul_self_nonneg u3]
    have h3 : u3 = 0 := by nlinarith [mul_self_nonneg u1, mul_self_nonneg u2, mul_self_nonneg u3]
    subst h1 h2 h3
    simp [segSqDistQ, clamp01_zero]
  · have hN' : (0:ℚ) < u1*u1 + u2*u2 + u3*u3 := by
      have h0 : (0:ℚ) ≤ u1*u1 + u2*u2 + u3*u3 := by
        nlinarith [mul_self_nonneg u1, mul_self_nonneg u2, mul_self_nonneg u3]
      exact lt_of_le_of_ne h0 (Ne.symm hN)
    have harg : ((v1-u1)*(-u1) + (v2-u2)*(-u2) + (v3-u3)*(-u3)) /
        ((-u1)*(-u1) + (-u2)*(-u2) + (-u3)*(-u3)) =
        1 - (v1*u1 + v2*u2 + v3*u3) / (u1*u1 + u2*u2 + u3*u3) := by
      rw [eq_sub_iff_add_eq]
      field_simp
      ring
    unfold segSqDistQ
    rw [harg, clamp01_one_sub]
    ring

theorem segSqDist_symm (a b q : Pt) : segSqDist a b q = segSqDist b a q := by
  unfold segSqDist
  apply segSqDistQ_symm <;> push_cast <;> ring

theorem bboxPts_symm (r : ℤ) (a b : Pt) : bboxPts r a b = bboxPts r b a := by
  unfold bboxPts
  rw [min_comm a.1 b.1, max_comm a.1 b.1, min_comm a.2.1 b.2.1,
    max_comm a.2.1 b.2.1, min_comm a.2.2 b.2.2, max_comm a.2.2 b.2.2]

theorem isTangent_symm (S : Pt → Bool) (opt : ℚ) (a b : Pt) :
    isTangent S opt a b = isTangent S opt b a := by
  unfold isTangent
  rw [bboxPts_symm]
  have hf : (fun q => !(decide (segSqDist a b q ≤ opt * opt)) || S q) =
      (fun q => !(decide (segSqDist b a q ≤ opt * opt)) || S q) := by
    funext q
    rw [segSqDist_symm]
  rw [hf]

/-- C7.  The tangency oracle is symmetric in its two point indices, for
every registry, every shape predicate and every threshold `opt`; being a
pure function of its inputs, the two calls always return the same answer. -/
theorem claim_C7 (R : Registry) (S : Pt → Bool) (opt : ℚ) (i j : Nat) :
    R.isTangentIdx S opt i j = R.isTangentIdx S opt j i := by
  unfold Registry.isTangentIdx
  cases hi : R.pointAt i <;> cases hj : R.pointAt j <;> simp
  exact isTangent_symm S opt _ _

/-! ### Voronoi map validation (`testVoronoiMap.cpp`)

`checkVoronoiL2` (lines 96-126 of `testVoronoiMap.cpp`) walks every point `p`
of the Voronoi image's domain, computes the squared L2 distance `d` to the
assigned site `voro(p)`, and fails as soon as some site of the input set is
strictly closer (`dbis < d`); otherwise it succeeds.  The `VoronoiMap`
implementation itself is not part of the provided sources, so the computed
map is modelled from the spec as the nearest-site assignment. -/

theorem voroMap_min (sites : List Pt) (p : Pt) :
    ∀ s ∈ sites, sqDist p (voroMap sites p) ≤ sqDist p s := by
  have aux : ∀ (l : List Pt) (b : Pt),
      sqDist p (l.foldl
          (fun best s' => if sqDist p s' < sqDist p best then s' else best) b)
        ≤ sqDist p b ∧
      ∀ s ∈ l, sqDist p (l.foldl
          (fun best s' => if sqDist p s' < sqDist p best then s' else best) b)
        ≤ sqDist p s := by
    intro l
    induction l with
    | nil => intro b; exact ⟨le_refl _, by simp⟩
    | cons s' t ih =>
      intro b
      rw [List.foldl_cons]
      by_cases hlt : sqDist p s' < sqDist p b
      · rw [if_pos hlt]
        refine ⟨le_of_lt (lt_of_le_of_lt (ih s').1 hlt), ?_⟩
        intro s hs
        rcases List.mem_cons.mp hs with h | h
        · exact h ▸ (ih s').1
        · exact (ih s').2 s h
      · rw [if_neg hlt]
        refine ⟨(ih b).1, ?_⟩
        intro s hs
        rcases List.mem_cons.mp hs with h | h
        · exact h ▸ le_trans (ih b).1 (le_of_not_lt hlt)
        · exact (ih b).2 s h
  intro s hs
  cases sites with
  | nil => cases hs
  | cons s0 rest =>
    rcases List.mem_cons.mp hs with h | h
    · exact h ▸ (aux rest s0).1
    · exact (aux rest s0).2 s h

/-- C10.  For every domain point `p`, the site assigned by the (spec-modelled)
L2 Voronoi map minimizes the squared Euclidean distance over the whole site
set — no site is strictly closer — and consequently the `checkVoronoiL2`
validation of `testVoronoiMap.cpp` succeeds on it. -/
theorem claim_C10 (domainL sites : List Pt) :
    (∀ p s, s ∈ sites → ¬ (sqDist p s < sqDist p (voroMap sites p)))
    ∧ checkVoronoiL2 domainL sites (voroMap sites) = true := by
  have hmin : ∀ p s, s ∈ sites →
      ¬ (sqDist p s < sqDist p (voroMap sites p)) :=
    fun p s hs => not_lt_of_le (voroMap_min sites p s hs)
  refine ⟨hmin, ?_⟩
  unfold checkVoronoiL2
  rw [List.all_eq_true]
  intro p _
  rw [List.all_eq_true]
  intro s hs
  simp [hmin p s hs]

/-! ### Shortest-Paths Engine

Modelled from the spec (§3 "SearchState", §4.4 "Shortest-Paths Engine"):
the `ShortestPaths` structure nested in `TangencyComputer` is not part of
the provided sources, only its caller `shortestPaths3D.cpp` is.  The spec
describes a Dijkstra-like state machine `Unseeded → Active → Finished` over
an implicitly enumerated graph.  Following the spec's design note §9
("Lazy graph via capability injection … enables unit-testing the Dijkstra
logic against a synthetic fixed-adjacency oracle"), the graph is an
injected adjacency predicate together with a weight function into an
ordered additive monoid `W` (the spec's non-negative reals being one
instance).

State representation: the spec's `visited` set, `ancestor` map and
`current` tuple are all derived from the settle history `hist` (most recent
settle first); `tent` is the spec's internal `distance` mapping
(`Index → non-negative real, default +infinity`), represented with the
`WithTop` infinity sentinel; `frontier` is the priority structure, kept as
the list of pending entries, popped at the earliest entry of minimal key
(the spec's "ties broken … deterministically (e.g., insertion order)"). -/

theorem getD_set_self {l : List (WithTop W)} {i : Nat} {v : WithTop W}
    (h : i < l.length) : (l.set i v).getD i ⊤ = v := by
  rw [List.getD_eq_getElem?_getD, List.getElem?_set_self h]
  rfl

theorem getD_set_ne {l : List (WithTop W)} {i j : Nat} {v : WithTop W}
    (h : i ≠ j) : (l.set i v).getD j ⊤ = l.getD j ⊤ := by
  rw [List.getD_eq_getElem?_getD, List.getElem?_set_ne h,
    ← List.getD_eq_getElem?_getD]

theorem visitedIn_iff {h : List (SPNode W)} {i : Nat} :
    visitedIn h i = true ↔ ∃ e ∈ h, e.1 = i := by
  simp [visitedIn, List.any_eq_true]

theorem visitedIn_eq_false {h : List (SPNode W)} {i : Nat} :
    visitedIn h i = false ↔ ∀ e ∈ h, e.1 ≠ i := by
  rw [← Bool.not_eq_true, visitedIn_iff]
  push_neg
  rfl

theorem visitedIn_cons {e : SPNode W} {h : List (SPNode W)} {i : Nat} :
    visitedIn (e :: h) i = ((e.1 == i) || visitedIn h i) := by
  simp [visitedIn]

theorem visitedIn_cons_of {e : SPNode W} {h : List (SPNode W)} {i : Nat}
    (hv : visitedIn h i = true) : visitedIn (e :: h) i = true := by
  rw [visitedIn_cons, hv, Bool.or_true]

theorem visitedIn_cons_self {e : SPNode W} {h : List (SPNode W)} :
    visitedIn (e :: h) e.1 = true := by
  rw [visitedIn_cons]
  simp

theorem visitedIn_cons_false {e : SPNode W} {h : List (SPNode W)} {i : Nat}
    (hv : visitedIn (e :: h) i = false) :
    e.1 ≠ i ∧ visitedIn h i = false := by
  rw [visitedIn_cons, Bool.or_eq_false_iff] at hv
  exact ⟨by simpa using hv.1, hv.2⟩

theorem histD_cons_self {e : SPNode W} {h : List (SPNode W)} :
    histD (e :: h) e.1 = some e.2.2 := by
  simp [histD, List.find?_cons]

theorem histD_cons_ne {e : SPNode W} {h : List (SPNode W)} {i : Nat}
    (hne : e.1 ≠ i) : histD (e :: h) i = histD h i := by
  simp [histD, List.find?_cons, hne]

theorem histD_isSome_of_visited {h : List (SPNode W)} {i : Nat}
    (hv : visitedIn h i = true) : ∃ da, histD h i = some da := by
  rcases visitedIn_iff.mp hv with ⟨e, he, hei⟩
  induction h with
  | nil => cases he
  | cons e' t ih =>
    by_cases h1 : e'.1 = i
    · exact ⟨e'.2.2, by simp [histD, List.find?_cons, h1]⟩
    · rcases List.mem_cons.mp he with h2 | h2
      · exact absurd (h2 ▸ hei) h1
      · rcases ih (visitedIn_iff.mpr ⟨e, h2, hei⟩) h2 with ⟨da, hda⟩
        exact ⟨da, by rw [histD_cons_ne h1, hda]⟩

theorem visited_of_histD {h : List (SPNode W)} {i : Nat} {da : W}
    (hd : histD h i = some da) : visitedIn h i = true := by
  rcases Option.map_eq_some'.mp hd with ⟨e, hfind, -⟩
  have h1 := List.find?_some hfind
  have h2 := List.mem_of_find?_eq_some hfind
  exact visitedIn_iff.mpr ⟨e, h2, by simpa using h1⟩

theorem mem_neighbors {G : Graph W} {i j : Nat} {wj : W} :
    (j, wj) ∈ G.neighbors i ↔
      j < G.n ∧ j ≠ i ∧ G.adj i j = true ∧ wj = G.w i j := by
  constructor
  · intro h
    rcases List.mem_filterMap.mp h with ⟨k, hk, hcond⟩
    by_cases hc : k ≠ i ∧ G.adj i k = true
    · rw [if_pos hc] at hcond
      rcases Prod.mk.injEq .. ▸ Option.some.injEq .. ▸ hcond with h'
      obtain ⟨h1, h2⟩ := Prod.mk.injEq .. |>.mp (Option.some.injEq .. |>.mp hcond)
      subst h1
      exact ⟨List.mem_range.mp hk, hc.1, hc.2, h2.symm⟩
    · rw [if_neg hc] at hcond
      cases hcond
  · rintro ⟨h1, h2, h3, h4⟩
    exact List.mem_filterMap.mpr ⟨j, List.mem_range.mpr h1,
      by rw [if_pos ⟨h2, h3⟩, h4]⟩

theorem neighbors_fst_lt {G : Graph W} {i : Nat} {f : Nat × W}
    (h : f ∈ G.neighbors i) :
    f.1 < G.n ∧ f.1 ≠ i ∧ G.adj i f.1 = true ∧ f.2 = G.w i f.1 := by
  obtain ⟨j, wj⟩ := f
  exact mem_neighbors.mp h

/-! popMinFresh lemmas -/

theorem popMinFresh_none {vis : Nat → Bool} {Q : List (SPNode W)}
    (h : popMinFresh vis Q = none) : ∀ f ∈ Q, vis f.1 = true := by
  induction Q with
  | nil => intro f hf; cases hf
  | cons e Q ih =>
    intro f hf
    rw [popMinFresh] at h
    rcases hrec : popMinFresh vis Q with - | ⟨m, Q'⟩
    · rw [hrec] at h
      by_cases hv : vis e.1
      · rcases List.mem_cons.mp hf with h1 | h1
        · exact h1 ▸ hv
        · exact ih hrec f h1
      · simp only [hv, Bool.false_eq_true, if_neg, not_false_iff] at h
        cases h
    · rw [hrec] at h
      by_cases hv : vis e.1
      · simp only [hv, if_pos] at h
        cases h
      · by_cases hle : e.2.2 ≤ m.2.2 <;>
          simp only [hv, Bool.false_eq_true, if_neg, not_false_iff, hle,
            if_pos] at h <;> cases h

theorem popMinFresh_isSome {vis : Nat → Bool} {Q : List (SPNode W)}
    {f : SPNode W} (hf : f ∈ Q) (hv : vis f.1 = false) :
    (popMinFresh vis Q).isSome = true := by
  rcases h : popMinFresh vis Q with - | p
  · rw [popMinFresh_none h f hf] at hv
    cases hv
  · rfl

theorem popMinFresh_spec {vis : Nat → Bool} {Q Q' : List (SPNode W)}
    {e : SPNode W} (h : popMinFresh vis Q = some (e, Q')) :
    e ∈ Q ∧ vis e.1 = false ∧ Q.Perm (e :: Q') ∧
      (∀ f ∈ Q, vis f.1 = false → e.2.2 ≤ f.2.2) := by
  induction Q generalizing e Q' with
  | nil => cases h
  | cons a Q ih =>
    rw [popMinFresh] at h
    rcases hrec : popMinFresh vis Q with - | ⟨m, Qm⟩
    · rw [hrec] at h
      by_cases hv : vis a.1
      · simp only [hv, if_pos] at h
        cases h
      · simp only [hv, Bool.false_eq_true, if_neg, not_false_iff,
          Option.some.injEq, Prod.mk.injEq] at h
        obtain ⟨h1, h2⟩ := h
        subst h1; subst h2
        refine ⟨List.mem_cons_self _ _, Bool.not_eq_true _ ▸ hv,
          List.Perm.refl _, ?_⟩
        intro f hf hvf
        rcases List.mem_cons.mp hf with h1 | h1
        · rw [h1]
        · rw [popMinFresh_none hrec f h1] at hvf
          cases hvf
    · rw [hrec] at h
      rcases ih hrec with ⟨hmem, hvm, hperm, hmin⟩
      by_cases hv : vis a.1
      · simp only [hv, if_pos, Option.some.injEq, Prod.mk.injEq] at h
        obtain ⟨h1, h2⟩ := h
        subst h1; subst h2
        refine ⟨List.mem_cons_of_mem _ hmem, hvm,
          (hperm.cons a).trans (List.Perm.swap _ _ _), ?_⟩
        intro f hf hvf
        rcases List.mem_cons.mp hf with h1 | h1
        · rw [h1] at hvf
          simp [hv] at hvf
        · exact hmin f h1 hvf
      · by_cases hle : a.2.2 ≤ m.2.2
        · simp only [hv, Bool.false_eq_true, if_neg, not_false_iff, hle,
            if_pos, Option.some.injEq, Prod.mk.injEq] at h
          obtain ⟨h1, h2⟩ := h
          subst h1; subst h2
          refine ⟨List.mem_cons_self _ _, Bool.not_eq_true _ ▸ hv,
            List.Perm.refl _, ?_⟩
          intro f hf hvf
          rcases List.mem_cons.mp hf with h1 | h1
          · rw [h1]
          · exact le_trans hle (hmin f h1 hvf)
        · simp only [hv, Bool.false_eq_true, if_neg, not_false_iff, hle,
            Option.some.injEq, Prod.mk.injEq] at h
          obtain ⟨h1, h2⟩ := h
          subst h1; subst h2
          refine ⟨List.mem_cons_of_mem _ hmem, hvm,
            (hperm.cons a).trans (List.Perm.swap _ _ _), ?_⟩
          intro f hf hvf
          rcases List.mem_cons.mp hf with h1 | h1
          · rw [h1]
            exact le_of_not_le hle
          · exact hmin f h1 hvf

/-! relaxList lemmas -/

theorem relax_len (vis : Nat → Bool) (i : Nat) (d : W)
    (ns : List (Nat × W)) (tent : List (WithTop W)) (F : List (SPNode W)) :
    (relaxList vis i d ns tent F).1.length = tent.length := by
  induction ns generalizing tent F with
  | nil => rfl
  | cons p rest ih =>
    obtain ⟨j, wj⟩ := p
    rw [relaxList]
    by_cases hv : vis j
    · rw [if_pos hv]
      exact ih tent F
    · rw [if_neg hv]
      by_cases himp : ((d + wj : W) : WithTop W) < tent.getD j ⊤
      · rw [if_pos himp, ih]
        exact List.length_set ..
      · rw [if_neg himp]
        exact ih tent F

theorem relax_frontier_append (vis : Nat → Bool) (i : Nat) (d : W)
    (ns : List (Nat × W)) (tent : List (WithTop W)) (F : List (SPNode W)) :
    ∃ add, (relaxList vis i d ns tent F).2 = F ++ add ∧
      ∀ f ∈ add, vis f.1 = false ∧
        ∃ wj, (f.1, wj) ∈ ns ∧ f = (f.1, i, d + wj) := by
  induction ns generalizing tent F with
  | nil => exact ⟨[], by simp [relaxList]⟩
  | cons p rest ih =>
    obtain ⟨j, wj⟩ := p
    rw [relaxList]
    by_cases hv : vis j
    · rw [if_pos hv]
      rcases ih tent F with ⟨add, h1, h2⟩
      exact ⟨add, h1, fun f hf =>
        ⟨(h2 f hf).1, (h2 f hf).2.choose,
          List.mem_cons_of_mem _ (h2 f hf).2.choose_spec.1,
          (h2 f hf).2.choose_spec.2⟩⟩
    · rw [if_neg hv]
      by_cases himp : ((d + wj : W) : WithTop W) < tent.getD j ⊤
      · rw [if_pos himp]
        rcases ih (tent.set j ((d + wj : W) : WithTop W))
          (F ++ [(j, i, d + wj)]) with ⟨add, h1, h2⟩
        refine ⟨(j, i, d + wj) :: add, by rw [h1, List.append_assoc]; rfl, ?_⟩
        intro f hf
        rcases List.mem_cons.mp hf with h3 | h3
        · subst h3
          exact ⟨Bool.not_eq_true _ ▸ hv, wj, List.mem_cons_self _ _, rfl⟩
        · exact ⟨(h2 f h3).1, (h2 f h3).2.choose,
            List.mem_cons_of_mem _ (h2 f h3).2.choose_spec.1,
            (h2 f h3).2.choose_spec.2⟩
      · rw [if_neg himp]
        rcases ih tent F with ⟨add, h1, h2⟩
        exact ⟨add, h1, fun f hf =>
          ⟨(h2 f hf).1, (h2 f hf).2.choose,
            List.mem_cons_of_mem _ (h2 f hf).2.choose_spec.1,
            (h2 f hf).2.choose_spec.2⟩⟩

theorem relax_tent_char (vis : Nat → Bool) (i : Nat) (d : W)
    (ns : List (Nat × W)) (tent : List (WithTop W)) (F : List (SPNode W))
    (hlen : ∀ p ∈ ns, p.1 < tent.length) (k : Nat) :
    (relaxList vis i d ns tent F).1.getD k ⊤ = tent.getD k ⊤ ∨
    (vis k = false ∧ ∃ wk, (k, wk) ∈ ns ∧
      (relaxList vis i d ns tent F).1.getD k ⊤ = ((d + wk : W) : WithTop W) ∧
      ((d + wk : W) : WithTop W) < tent.getD k ⊤) := by
  induction ns generalizing tent F with
  | nil => exact Or.inl rfl
  | cons p rest ih =>
    obtain ⟨j, wj⟩ := p
    have hlen' : ∀ p ∈ rest, p.1 < tent.length :=
      fun p hp => hlen p (List.mem_cons_of_mem _ hp)
    rw [relaxList]
    by_cases hv : vis j
    · rw [if_pos hv]
      rcases ih tent F hlen' with h | ⟨h1, wk, h2, h3, h4⟩
      · exact Or.inl h
      · exact Or.inr ⟨h1, wk, List.mem_cons_of_mem _ h2, h3, h4⟩
    · rw [if_neg hv]
      by_cases himp : ((d + wj : W) : WithTop W) < tent.getD j ⊤
      · rw [if_pos himp]
        have hlen2 : ∀ p ∈ rest,
            p.1 < (tent.set j ((d + wj : W) : WithTop W)).length := by
          rw [List.length_set]
          exact hlen'
        have hjlt : j < tent.length := hlen (j, wj) (List.mem_cons_self _ _)
        rcases ih (tent.set j ((d + wj : W) : WithTop W))
          (F ++ [(j, i, d + wj)]) hlen2 with h | ⟨h1, wk, h2, h3, h4⟩
        · by_cases hkj : k = j
          · subst hkj
            rw [h, getD_set_self hjlt]
            exact Or.inr ⟨Bool.not_eq_true _ ▸ hv, wj, List.mem_cons_self _ _, rfl, himp⟩
          · rw [h, getD_set_ne (Ne.symm hkj)]
            exact Or.inl rfl
        · by_cases hkj : k = j
          · subst hkj
            rw [getD_set_self hjlt] at h4
            exact Or.inr ⟨h1, wk, List.mem_cons_of_mem _ h2, h3,
              lt_trans h4 himp⟩
          · rw [getD_set_ne (Ne.symm hkj)] at h4
            exact Or.inr ⟨h1, wk, List.mem_cons_of_mem _ h2, h3, h4⟩
      · rw [if_neg himp]
        rcases ih tent F hlen' with h | ⟨h1, wk, h2, h3, h4⟩
        · exact Or.inl h
        · exact Or.inr ⟨h1, wk, List.mem_cons_of_mem _ h2, h3, h4⟩

theorem relax_vis_stable (vis : Nat → Bool) (i : Nat) (d : W)
    (ns : List (Nat × W)) (tent : List (WithTop W)) (F : List (SPNode W))
    (hlen : ∀ p ∈ ns, p.1 < tent.length) (k : Nat) (hv : vis k = true) :
    (relaxList vis i d ns tent F).1.getD k ⊤ = tent.getD k ⊤ := by
  rcases relax_tent_char vis i d ns tent F hlen k with h | ⟨h1, -⟩
  · exact h
  · rw [hv] at h1
    cases h1

theorem relax_le (vis : Nat → Bool) (i : Nat) (d : W)
    (ns : List (Nat × W)) (tent : List (WithTop W)) (F : List (SPNode W))
    (hlen : ∀ p ∈ ns, p.1 < tent.length) (k : Nat) :
    (relaxList vis i d ns tent F).1.getD k ⊤ ≤ tent.getD k ⊤ := by
  rcases relax_tent_char vis i d ns tent F hlen k with h | ⟨-, wk, -, h3, h4⟩
  · exact le_of_eq h
  · rw [h3]
    exact le_of_lt h4

theorem relax_link (vis : Nat → Bool) (i : Nat) (d : W)
    (ns : List (Nat × W)) (tent : List (WithTop W)) (F : List (SPNode W))
    (hlen : ∀ p ∈ ns, p.1 < tent.length)
    (hpre : ∀ k, vis k = false → tent.getD k ⊤ ≠ ⊤ →
      ∃ f ∈ F, f.1 = k ∧ ((f.2.2 : W) : WithTop W) = tent.getD k ⊤) :
    ∀ k, vis k = false → (relaxList vis i d ns tent F).1.getD k ⊤ ≠ ⊤ →
      ∃ f ∈ (relaxList vis i d ns tent F).2, f.1 = k ∧
        ((f.2.2 : W) : WithTop W) = (relaxList vis i d ns tent F).1.getD k ⊤ := by
  induction ns generalizing tent F with
  | nil => exact hpre
  | cons p rest ih =>
    obtain ⟨j, wj⟩ := p
    have hlen' : ∀ p ∈ rest, p.1 < tent.length :=
      fun p hp => hlen p (List.mem_cons_of_mem _ hp)
    rw [relaxList]
    by_cases hv : vis j
    · rw [if_pos hv]
      exact ih tent F hlen' hpre
    · rw [if_neg hv]
      by_cases himp : ((d + wj : W) : WithTop W) < tent.getD j ⊤
      · rw [if_pos himp]
        have hjlt : j < tent.length := hlen (j, wj) (List.mem_cons_self _ _)
        have hlen2 : ∀ p ∈ rest,
            p.1 < (tent.set j ((d + wj : W) : WithTop W)).length := by
          rw [List.length_set]; exact hlen'
        refine ih (tent.set j ((d + wj : W) : WithTop W))
          (F ++ [(j, i, d + wj)]) hlen2 ?_
        intro k hk htop
        by_cases hkj : k = j
        · subst hkj
          refine ⟨(k, i, d + wj), by simp, rfl, ?_⟩
          rw [getD_set_self hjlt]
        · rw [getD_set_ne (Ne.symm hkj)] at htop ⊢
          rcases hpre k hk htop with ⟨f, hf1, hf2, hf3⟩
          exact ⟨f, List.mem_append_left _ hf1, hf2, hf3⟩
      · rw [if_neg himp]
        exact ih tent F hlen' hpre

theorem relax_cover (vis : Nat → Bool) (i : Nat) (d : W)
    (ns : List (Nat × W)) (tent : List (WithTop W)) (F : List (SPNode W))
    (hlen : ∀ p ∈ ns, p.1 < tent.length)
    (hpre : ∀ k, vis k = false → tent.getD k ⊤ ≠ ⊤ →
      ∃ f ∈ F, f.1 = k ∧ ((f.2.2 : W) : WithTop W) = tent.getD k ⊤) :
    ∀ p ∈ ns, vis p.1 = true ∨
      ∃ f ∈ (relaxList vis i d ns tent F).2, f.1 = p.1 := by
  induction ns generalizing tent F with
  | nil => intro p hp; cases hp
  | cons p0 rest ih =>
    obtain ⟨j, wj⟩ := p0
    have hlen' : ∀ p ∈ rest, p.1 < tent.length :=
      fun p hp => hlen p (List.mem_cons_of_mem _ hp)
    intro p hp
    rw [relaxList]
    by_cases hv : vis j
    · rw [if_pos hv]
      rcases List.mem_cons.mp hp with h | h
      · exact Or.inl (by rw [h]; exact hv)
      · exact ih tent F hlen' hpre p h
    · rw [if_neg hv]
      by_cases himp : ((d + wj : W) : WithTop W) < tent.getD j ⊤
      · rw [if_pos himp]
        have hjlt : j < tent.length := hlen (j, wj) (List.mem_cons_self _ _)
        have hlen2 : ∀ p ∈ rest,
            p.1 < (tent.set j ((d + wj : W) : WithTop W)).length := by
          rw [List.length_set]; exact hlen'
        have hpre2 : ∀ k, vis k = false →
            (tent.set j ((d + wj : W) : WithTop W)).getD k ⊤ ≠ ⊤ →
            ∃ f ∈ F ++ [(j, i, d + wj)], f.1 = k ∧
              ((f.2.2 : W) : WithTop W) =
                (tent.set j ((d + wj : W) : WithTop W)).getD k ⊤ := by
          intro k hk htop
          by_cases hkj : k = j
          · subst hkj
            refine ⟨(k, i, d + wj), by simp, rfl, ?_⟩
            rw [getD_set_self hjlt]
          · rw [getD_set_ne (Ne.symm hkj)] at htop ⊢
            rcases hpre k hk htop with ⟨f, hf1, hf2, hf3⟩
            exact ⟨f, List.mem_append_left _ hf1, hf2, hf3⟩
        rcases List.mem_cons.mp hp with h | h
        · subst h
          rcases relax_frontier_append vis i d rest
            (tent.set j ((d + wj : W) : WithTop W))
            (F ++ [(j, i, d + wj)]) with ⟨add, hadd, -⟩
          refine Or.inr ⟨(j, i, d + wj), ?_, rfl⟩
          rw [hadd]
          exact List.mem_append_left _ (List.mem_append_right _ (by simp))
        · exact ih (tent.set j ((d + wj : W) : WithTop W))
            (F ++ [(j, i, d + wj)]) hlen2 hpre2 p h
      · rw [if_neg himp]
        rcases List.mem_cons.mp hp with h | h
        · subst h
          have htop : tent.getD j ⊤ ≠ ⊤ := by
            intro hT
            rw [hT] at himp
            exact himp (WithTop.coe_lt_top _)
          rcases hpre j (Bool.not_eq_true _ ▸ hv) htop with ⟨f, hf1, hf2, -⟩
          rcases relax_frontier_append vis i d rest tent F with ⟨add, hadd, -⟩
          refine Or.inr ⟨f, ?_, hf2⟩
          rw [hadd]
          exact List.mem_append_left _ hf1
        · exact ih tent F hlen' hpre p h

theorem relax_bound (vis : Nat → Bool) (i : Nat) (d : W)
    (ns : List (Nat × W)) (tent : List (WithTop W)) (F : List (SPNode W))
    (hlen : ∀ p ∈ ns, p.1 < tent.length)
    (hpre : ∀ f ∈ F, tent.getD f.1 ⊤ ≤ ((f.2.2 : W) : WithTop W)) :
    ∀ f ∈ (relaxList vis i d ns tent F).2,
      (relaxList vis i d ns tent F).1.getD f.1 ⊤
        ≤ ((f.2.2 : W) : WithTop W) := by
  induction ns generalizing tent F with
  | nil => exact hpre
  | cons p0 rest ih =>
    obtain ⟨j, wj⟩ := p0
    have hlen' : ∀ p ∈ rest, p.1 < tent.length :=
      fun p hp => hlen p (List.mem_cons_of_mem _ hp)
    rw [relaxList]
    by_cases hv : vis j
    · rw [if_pos hv]
      exact ih tent F hlen' hpre
    · rw [if_neg hv]
      by_cases himp : ((d + wj : W) : WithTop W) < tent.getD j ⊤
      · rw [if_pos himp]
        have hjlt : j < tent.length := hlen (j, wj) (List.mem_cons_self _ _)
        have hlen2 : ∀ p ∈ rest,
            p.1 < (tent.set j ((d + wj : W) : WithTop W)).length := by
          rw [List.length_set]; exact hlen'
        refine ih (tent.set j ((d + wj : W) : WithTop W))
          (F ++ [(j, i, d + wj)]) hlen2 ?_
        intro f hf
        rcases List.mem_append.mp hf with h | h
        · by_cases hkj : f.1 = j
          · rw [hkj, getD_set_self hjlt]
            exact le_trans (le_of_lt himp) (hkj ▸ hpre f h)
          · rw [getD_set_ne (Ne.symm hkj)]
            exact hpre f h
        · rcases List.mem_singleton.mp h with h
          subst h
          rw [getD_set_self hjlt]
      · rw [if_neg himp]
        exact ih tent F hlen' hpre

/-! ### The engine invariant -/

theorem initOn_eq (G : Graph W) (src : Nat) :
    initOn G src =
      { phase := Phase.active
        src := src
        tent := (List.replicate G.n (⊤ : WithTop W)).set src ((0 : W) : WithTop W)
        hist := []
        frontier := [(src, src, 0)] } := rfl

theorem init_mk_ok (G : Graph W) (src : Nat) :
    (makeShortestPaths W G.n).init src = Except.ok (initOn G src) := rfl

theorem initOn_tent (G : Graph W) (src : Nat) (j : Nat) :
    (initOn G src).tent.getD j ⊤ =
      if j = src ∧ src < G.n then ((0 : W) : WithTop W) else ⊤ := by
  rw [initOn_eq]
  dsimp only
  by_cases h1 : j = src
  · subst h1
    by_cases h2 : j < G.n
    · rw [if_pos ⟨rfl, h2⟩, getD_set_self (by simpa using h2)]
    · rw [if_neg (fun hc => h2 hc.2), List.getD_eq_default]
      simpa using Nat.le_of_not_lt h2
  · rw [if_neg (fun hc => h1 hc.1), getD_set_ne (Ne.symm h1),
      List.getD_eq_getElem?_getD, List.getElem?_replicate]
    by_cases h2 : j < G.n <;> simp [h2]

theorem inv_initOn (G : Graph W) (src : Nat) (hsrc : src < G.n) :
    Inv G (initOn G src) := by
  have htent := initOn_tent G src
  rw [initOn_eq] at htent ⊢
  dsimp only at htent
  constructor <;> dsimp only
  case tlen => simp
  case srcLt => exact hsrc
  case phaseOk => exact Or.inl rfl
  case finIff =>
    constructor
    · intro h; cases h
    · intro h; cases h
  case histNe => intro h; cases h
  case lastSrc => intro e h; cases h
  case nodup => exact List.nodup_nil
  case histLt => intro e h; cases h
  case histTent => intro e h; cases h
  case ancW => trivial
  case histMono => exact List.Pairwise.nil
  case histReach => intro e h; cases h
  case frLt =>
    intro f hf
    rcases List.mem_singleton.mp hf with h
    rw [h]
    exact hsrc
  case frFresh =>
    intro f hf
    rfl
  case frTent =>
    intro f hf
    rcases List.mem_singleton.mp hf with h
    subst h
    rw [htent src, if_pos ⟨rfl, hsrc⟩]
  case frLast =>
    intro f hf
    rcases List.mem_singleton.mp hf with h
    subst h
    exact le_refl _
  case frSrc =>
    intro f hf
    rcases List.mem_singleton.mp hf with h
    exact Or.inl ⟨rfl, h⟩
  case frReach =>
    intro f hf
    rcases List.mem_singleton.mp hf with h
    rw [h]
    exact Reach.base
  case cover => intro e h; cases h
  case tentLink =>
    intro j hv htop
    rw [htent j] at htop ⊢
    by_cases h1 : j = src
    · subst h1
      rw [if_pos ⟨rfl, hsrc⟩]
      exact ⟨(j, j, 0), List.mem_singleton.mpr rfl, rfl, rfl⟩
    · rw [if_neg (fun hc => h1 hc.1)] at htop
      exact absurd rfl htop
  case tentReach =>
    intro j htop
    rw [htent j] at htop
    by_cases h1 : j = src
    · rw [h1]; exact Reach.base
    · rw [if_neg (fun hc => h1 hc.1)] at htop
      exact absurd rfl htop

/-! ### Preservation of the invariant by `expand` -/

theorem expandAux_hist (G : Graph W) (s : SPState W) (i anc : Nat) (d : W)
    (Q : List (SPNode W)) :
    (s.expandAux G i anc d Q).hist = (i, anc, d) :: s.hist := rfl

theorem expandAux_src (G : Graph W) (s : SPState W) (i anc : Nat) (d : W)
    (Q : List (SPNode W)) :
    (s.expandAux G i anc d Q).src = s.src := rfl

theorem expandAux_tent (G : Graph W) (s : SPState W) (i anc : Nat) (d : W)
    (Q : List (SPNode W)) :
    (s.expandAux G i anc d Q).tent =
      (relaxList (visitedIn ((i, anc, d) :: s.hist)) i d (G.neighbors i)
        (s.tent.set i ((d : W) : WithTop W)) Q).1 := rfl

theorem expandAux_frontier (G : Graph W) (s : SPState W) (i anc : Nat)
    (d : W) (Q : List (SPNode W)) :
    (s.expandAux G i anc d Q).frontier =
      (relaxList (visitedIn ((i, anc, d) :: s.hist)) i d (G.neighbors i)
        (s.tent.set i ((d : W) : WithTop W)) Q).2.filter
        (fun f => !(visitedIn ((i, anc, d) :: s.hist) f.1)) := rfl

theorem expandAux_phase (G : Graph W) (s : SPState W) (i anc : Nat) (d : W)
    (Q : List (SPNode W)) :
    (s.expandAux G i anc d Q).phase =
      if (s.expandAux G i anc d Q).frontier.isEmpty then Phase.finished
      else Phase.active := rfl

theorem lastD_cons (e : SPNode W) (h : List (SPNode W)) :
    lastD (e :: h) = e.2.2 := rfl

/-- The facts delivered by popping the minimal fresh frontier entry of an
invariant-satisfying active state. -/
theorem popped_facts {G : Graph W} {s : SPState W} (hInv : Inv G s)
    {i anc : Nat} {d : W} {Q : List (SPNode W)}
    (hpop : popMinFresh (fun j => s.isVisited j) s.frontier
      = some ((i, anc, d), Q)) :
    (i, anc, d) ∈ s.frontier ∧ visitedIn s.hist i = false ∧
    (∀ f ∈ Q, f ∈ s.frontier) ∧ (∀ f ∈ s.frontier, d ≤ f.2.2) ∧
    s.tent.getD i ⊤ = ((d : W) : WithTop W) ∧
    (∀ f ∈ s.frontier, f.1 ≠ i → f ∈ Q) := by
  rcases popMinFresh_spec hpop with ⟨hmem, hfresh, hperm, hmin⟩
  have hfresh' : visitedIn s.hist i = false := hfresh
  have hQ : ∀ f ∈ Q, f ∈ s.frontier := by
    intro f hf
    exact hperm.mem_iff.mpr (List.mem_cons_of_mem _ hf)
  have hmin' : ∀ f ∈ s.frontier, d ≤ f.2.2 := by
    intro f hf
    exact hmin f hf (hInv.frFresh f hf)
  have htent : s.tent.getD i ⊤ = ((d : W) : WithTop W) := by
    have h1 : s.tent.getD i ⊤ ≤ ((d : W) : WithTop W) := hInv.frTent _ hmem
    have h2 : s.tent.getD i ⊤ ≠ ⊤ := by
      intro hT
      rw [hT] at h1
      exact absurd (lt_of_le_of_lt h1 (WithTop.coe_lt_top d))
        (lt_irrefl _)
    rcases hInv.tentLink i hfresh' h2 with ⟨f, hf, hf1, hf2⟩
    have h3 : ((d : W) : WithTop W) ≤ s.tent.getD i ⊤ := by
      rw [← hf2]
      exact WithTop.coe_le_coe.mpr (hmin' f hf)
    exact le_antisymm h1 h3
  refine ⟨hmem, hfresh', hQ, hmin', htent, ?_⟩
  intro f hf hne
  rcases List.mem_cons.mp (hperm.mem_iff.mp hf) with h | h
  · exact absurd (congrArg Prod.fst h) hne
  · exact h

theorem tent_set_popped {G : Graph W} {s : SPState W} (hInv : Inv G s)
    {i : Nat} {d : W} (hlt : i < G.n)
    (htent : s.tent.getD i ⊤ = ((d : W) : WithTop W)) (k : Nat) :
    (s.tent.set i ((d : W) : WithTop W)).getD k ⊤ = s.tent.getD k ⊤ := by
  by_cases hk : k = i
  · subst hk
    rw [getD_set_self (by rw [hInv.tlen]; exact hlt), htent]
  · rw [getD_set_ne (fun h => hk h.symm)]

theorem mem_le_lastD {h : List (SPNode W)}
    (hmono : List.Pairwise (fun e f => f.2.2 ≤ e.2.2) h) {y : SPNode W}
    (hy : y ∈ h) : y.2.2 ≤ lastD h := by
  cases h with
  | nil => cases hy
  | cons c t =>
    rw [lastD_cons]
    rcases List.mem_cons.mp hy with h1 | h1
    · rw [h1]
    · exact (List.pairwise_cons.mp hmono).1 y h1

/-- One settle-and-relax step preserves the engine invariant (the heart of
the Dijkstra argument; non-negative weights are required for the
monotonicity components). -/
theorem inv_expandAux {G : Graph W} {s : SPState W}
    (hw : ∀ a b, 0 ≤ G.w a b) (hInv : Inv G s)
    {i anc : Nat} {d : W} {Q : List (SPNode W)}
    (hpop : popMinFresh (fun j => s.isVisited j) s.frontier
      = some ((i, anc, d), Q)) :
    Inv G (s.expandAux G i anc d Q) := by
  rcases popped_facts hInv hpop with ⟨hmem, hfresh, hQ, hmin, htent, hback⟩
  have hiLt : i < G.n := hInv.frLt _ hmem
  have htentEq := tent_set_popped hInv hiLt htent
  have hvisi : visitedIn ((i, anc, d) :: s.hist) i = true :=
    visitedIn_cons_self
  have hvisOld : ∀ e ∈ s.hist, visitedIn ((i, anc, d) :: s.hist) e.1 = true :=
    fun e he => visitedIn_cons_of (visitedIn_iff.mpr ⟨e, he, rfl⟩)
  have hfreshNe : ∀ e ∈ s.hist, e.1 ≠ i := visitedIn_eq_false.mp hfresh
  have hlen0 : ∀ p ∈ G.neighbors i,
      p.1 < (s.tent.set i ((d : W) : WithTop W)).length := by
    intro p hp
    rw [List.length_set, hInv.tlen]
    exact (neighbors_fst_lt hp).1
  have hlink0 : ∀ k, visitedIn ((i, anc, d) :: s.hist) k = false →
      (s.tent.set i ((d : W) : WithTop W)).getD k ⊤ ≠ ⊤ →
      ∃ f ∈ Q, f.1 = k ∧ ((f.2.2 : W) : WithTop W) =
        (s.tent.set i ((d : W) : WithTop W)).getD k ⊤ := by
    intro k hk htop
    rcases visitedIn_cons_false hk with ⟨hik, hkold⟩
    rw [htentEq k] at htop ⊢
    rcases hInv.tentLink k hkold htop with ⟨f, hf, hf1, hf2⟩
    exact ⟨f, hback f hf (by rw [hf1]; exact fun h => hik h.symm), hf1, hf2⟩
  have hbound0 : ∀ f ∈ Q,
      (s.tent.set i ((d : W) : WithTop W)).getD f.1 ⊤
        ≤ ((f.2.2 : W) : WithTop W) := by
    intro f hf
    rw [htentEq]
    exact hInv.frTent f (hQ f hf)
  rcases relax_frontier_append (visitedIn ((i, anc, d) :: s.hist)) i d
    (G.neighbors i) (s.tent.set i ((d : W) : WithTop W)) Q
    with ⟨add, hadd, haddchar⟩
  have hmemF : ∀ f, f ∈ (s.expandAux G i anc d Q).frontier ↔
      f ∈ (relaxList (visitedIn ((i, anc, d) :: s.hist)) i d (G.neighbors i)
        (s.tent.set i ((d : W) : WithTop W)) Q).2 ∧
      visitedIn ((i, anc, d) :: s.hist) f.1 = false := by
    intro f
    rw [expandAux_frontier, List.mem_filter, Bool.not_eq_true']
  have hmemQadd : ∀ f,
      f ∈ (relaxList (visitedIn ((i, anc, d) :: s.hist)) i d (G.neighbors i)
        (s.tent.set i ((d : W) : WithTop W)) Q).2 ↔ f ∈ Q ∨ f ∈ add := by
    intro f
    rw [hadd, List.mem_append]
  constructor
  case tlen =>
    rw [expandAux_tent, relax_len, List.length_set]
    exact hInv.tlen
  case srcLt =>
    rw [expandAux_src]
    exact hInv.srcLt
  case phaseOk =>
    rw [expandAux_phase]
    by_cases hE : (s.expandAux G i anc d Q).frontier.isEmpty
    · rw [if_pos hE]
      exact Or.inr rfl
    · rw [if_neg hE]
      exact Or.inl rfl
  case finIff =>
    rw [expandAux_phase]
    by_cases hE : (s.expandAux G i anc d Q).frontier.isEmpty
    · rw [if_pos hE]
      exact ⟨fun _ => List.isEmpty_iff.mp hE, fun _ => rfl⟩
    · rw [if_neg hE]
      constructor
      · intro h; cases h
      · intro h
        rw [h] at hE
        exact absurd rfl hE
  case histNe =>
    intro hfin
    rw [expandAux_hist]
    exact List.cons_ne_nil _ _
  case lastSrc =>
    intro e he
    rw [expandAux_hist] at he
    rw [expandAux_src]
    rcases hh : s.hist with - | ⟨c, t⟩
    · rw [hh] at he
      have h' : e = (i, anc, d) := ((by simpa using he : (i, anc, d) = e)).symm
      subst h'
      rcases hInv.frSrc _ hmem with ⟨-, hE⟩ | ⟨da, hda, -⟩
      · simp only [Prod.mk.injEq] at hE
        exact hE.1
      · rw [hh] at hda
        simp [histD] at hda
    · rw [hh] at he
      rw [List.getLast?_cons_cons] at he
      have := hInv.lastSrc e
      rw [hh] at this
      exact this he
  case nodup =>
    rw [expandAux_hist]
    rw [List.map_cons]
    refine List.nodup_cons.mpr ⟨?_, hInv.nodup⟩
    intro hmem'
    rcases List.mem_map.mp hmem' with ⟨e, he, hei⟩
    exact hfreshNe e he hei
  case histLt =>
    intro e he
    rw [expandAux_hist] at he
    rcases List.mem_cons.mp he with h | h
    · rw [h]
      exact hiLt
    · exact hInv.histLt e h
  case histTent =>
    intro e he
    rw [expandAux_hist] at he
    rw [expandAux_tent]
    rcases List.mem_cons.mp he with h | h
    · subst h
      rw [relax_vis_stable _ _ _ _ _ _ hlen0 _ hvisi,
        getD_set_self (by rw [hInv.tlen]; exact hiLt)]
    · rw [relax_vis_stable _ _ _ _ _ _ hlen0 _ (hvisOld e h), htentEq]
      exact hInv.histTent e h
  case ancW =>
    rw [expandAux_hist]
    refine ⟨?_, hInv.ancW⟩
    rcases hh : s.hist with - | ⟨c, t⟩
    · left
      rcases hInv.frSrc _ hmem with ⟨-, hE⟩ | ⟨da, hda, -⟩
      · simp only [Prod.mk.injEq] at hE
        exact ⟨rfl, by rw [hE.2.1, hE.1], hE.2.2⟩
      · rw [hh] at hda
        simp [histD] at hda
    · right
      rcases hInv.frSrc _ hmem with ⟨hnil, -⟩ | ⟨da, hda, hadj, hne, hd⟩
      · rw [hh] at hnil
        cases hnil
      · rcases Option.map_eq_some'.mp hda with ⟨f, hfind, hfd⟩
        have hfmem : f ∈ s.hist := List.mem_of_find?_eq_some hfind
        have hfa : f.1 = anc := by
          have := List.find?_some hfind
          simpa using this
        rw [hh] at hfmem
        exact ⟨f, hfmem, hfa, hadj, hne, by rw [hd, hfd]⟩
  case histMono =>
    rw [expandAux_hist]
    refine List.pairwise_cons.mpr ⟨?_, hInv.histMono⟩
    intro y hy
    exact le_trans (mem_le_lastD hInv.histMono hy) (hInv.frLast _ hmem)
  case histReach =>
    intro e he
    rw [expandAux_hist] at he
    rw [expandAux_src]
    rcases List.mem_cons.mp he with h | h
    · rw [h]
      exact hInv.frReach _ hmem
    · exact hInv.histReach e h
  case frLt =>
    intro f hf
    rcases (hmemF f).mp hf with ⟨hfRL, -⟩
    rcases (hmemQadd f).mp hfRL with h | h
    · exact hInv.frLt f (hQ f h)
    · rcases haddchar f h with ⟨-, wj, hjn, -⟩
      exact (neighbors_fst_lt hjn).1
  case frFresh =>
    intro f hf
    rw [expandAux_hist]
    exact ((hmemF f).mp hf).2
  case frTent =>
    intro f hf
    rw [expandAux_tent]
    rcases (hmemF f).mp hf with ⟨hfRL, -⟩
    exact relax_bound _ _ _ _ _ _ hlen0 hbound0 f hfRL
  case frLast =>
    intro f hf
    rw [expandAux_hist, lastD_cons]
    rcases (hmemF f).mp hf with ⟨hfRL, -⟩
    rcases (hmemQadd f).mp hfRL with h | h
    · exact hmin f (hQ f h)
    · rcases haddchar f h with ⟨-, wj, hjn, hform⟩
      rw [hform]
      exact le_add_of_nonneg_right
        (by rw [(mem_neighbors.mp hjn).2.2.2]; exact hw i f.1)
  case frSrc =>
    intro f hf
    rw [expandAux_hist]
    rcases (hmemF f).mp hf with ⟨hfRL, hffresh⟩
    rcases (hmemQadd f).mp hfRL with h | h
    · rcases hInv.frSrc f (hQ f h) with ⟨hnil, hfv⟩ | ⟨da, hda, hadj, hne, hd⟩
      · exfalso
        rcases hInv.frSrc _ hmem with ⟨-, hE⟩ | ⟨da, hda, -⟩
        · simp only [Prod.mk.injEq] at hE
          have hfi : f.1 = i := by rw [hfv, hE.1]
          rcases visitedIn_cons_false hffresh with ⟨hne, -⟩
          exact hne hfi.symm
        · rw [hnil] at hda
          simp [histD] at hda
      · right
        refine ⟨da, ?_, hadj, hne, hd⟩
        rw [histD_cons_ne]
        · exact hda
        · have hvanc : visitedIn s.hist f.2.1 = true := visited_of_histD hda
          intro hia
          rw [← hia] at hvanc
          rw [hvanc] at hfresh
          cases hfresh
    · rcases haddchar f h with ⟨-, wj, hjn, hform⟩
      right
      rcases neighbors_fst_lt hjn with ⟨-, hjne, hadj, hwj⟩
      have h21 : f.2.1 = i := by rw [hform]
      have h22 : f.2.2 = d + wj := by rw [hform]
      refine ⟨d, ?_, ?_, ?_, ?_⟩
      · rw [h21]
        exact histD_cons_self
      · rw [h21]
        exact hadj
      · rw [h21]
        exact fun hc => hjne hc.symm
      · rw [h22, h21, ← hwj]
  case frReach =>
    intro f hf
    rw [expandAux_src]
    rcases (hmemF f).mp hf with ⟨hfRL, -⟩
    rcases (hmemQadd f).mp hfRL with h | h
    · exact hInv.frReach f (hQ f h)
    · rcases haddchar f h with ⟨-, wj, hjn, -⟩
      rcases neighbors_fst_lt hjn with ⟨hjlt, hjne, hadj, -⟩
      exact Reach.step (hInv.frReach _ hmem) hjlt hjne hadj
  case cover =>
    intro e he j hjlt hjne hadj
    rw [expandAux_hist] at he ⊢
    rcases List.mem_cons.mp he with h | h
    · subst h
      have hjn : (j, G.w i j) ∈ G.neighbors i :=
        mem_neighbors.mpr ⟨hjlt, hjne, hadj, rfl⟩
      rcases relax_cover _ _ _ _ _ _ hlen0 hlink0 _ hjn with hv | ⟨f, hfRL, hfj⟩
      · exact Or.inl hv
      · by_cases hvj : visitedIn ((i, anc, d) :: s.hist) j = true
        · exact Or.inl hvj
        · right
          refine ⟨f, (hmemF f).mpr ⟨hfRL, ?_⟩, hfj⟩
          rw [hfj]
          exact Bool.not_eq_true _ ▸ hvj
    · rcases hInv.cover e h j hjlt hjne hadj with hv | ⟨f, hfr, hfj⟩
      · exact Or.inl (visitedIn_cons_of hv)
      · by_cases hfi : f.1 = i
        · left
          rw [← hfj, hfi]
          exact hvisi
        · have hfQ : f ∈ Q := hback f hfr hfi
          by_cases hvj : visitedIn ((i, anc, d) :: s.hist) j = true
          · exact Or.inl hvj
          · right
            refine ⟨f, (hmemF f).mpr ⟨(hmemQadd f).mpr (Or.inl hfQ), ?_⟩, hfj⟩
            rw [hfj]
            exact Bool.not_eq_true _ ▸ hvj
  case tentLink =>
    intro j hj htop
    rw [expandAux_hist] at hj
    rw [expandAux_tent] at htop ⊢
    rcases relax_link _ _ _ _ _ _ hlen0 hlink0 j hj htop
      with ⟨f, hfRL, hfj, hfval⟩
    exact ⟨f, (hmemF f).mpr ⟨hfRL, by rw [hfj]; exact hj⟩, hfj, hfval⟩
  case tentReach =>
    intro j htop
    rw [expandAux_src]
    rw [expandAux_tent] at htop
    rcases relax_tent_char (visitedIn ((i, anc, d) :: s.hist)) i d
      (G.neighbors i) (s.tent.set i ((d : W) : WithTop W)) Q hlen0 j
      with hsame | ⟨-, wk, hkn, -, -⟩
    · rw [hsame, htentEq] at htop
      exact hInv.tentReach j htop
    · rcases neighbors_fst_lt hkn with ⟨hklt, hkne, hkadj, -⟩
      exact Reach.step (hInv.frReach _ hmem) hklt hkne hkadj

/-! ### Runs of the engine -/

theorem expand_ok {G : Graph W} {s : SPState W} (hInv : Inv G s)
    (hact : s.phase = Phase.active) :
    ∃ i anc d Q, popMinFresh (fun j => s.isVisited j) s.frontier
        = some ((i, anc, d), Q) ∧
      s.expand G = Except.ok (s.expandAux G i anc d Q) ∧
      expandT G s = s.expandAux G i anc d Q := by
  have hne : s.frontier ≠ [] := by
    intro h
    have hfin := hInv.finIff.mpr h
    rw [hact] at hfin
    cases hfin
  have hsome : (popMinFresh (fun j => s.isVisited j) s.frontier).isSome
      = true := by
    rcases hq : s.frontier with - | ⟨f0, F⟩
    · exact absurd hq hne
    · have hf0 : f0 ∈ s.frontier := by
        rw [hq]
        exact List.mem_cons_self _ _
      exact popMinFresh_isSome (List.mem_cons_self _ _)
        (hInv.frFresh f0 hf0)
  rcases hp : popMinFresh (fun j => s.isVisited j) s.frontier
    with - | ⟨⟨i, anc, d⟩, Q⟩
  · rw [hp] at hsome
    cases hsome
  refine ⟨i, anc, d, Q, rfl, ?_, ?_⟩
  · rw [SPState.expand, if_pos hact, hp]
  · rw [expandT, SPState.expand, if_pos hact, hp]

theorem expandT_not_active {G : Graph W} {s : SPState W}
    (h : ¬ s.phase = Phase.active) : expandT G s = s := by
  rw [expandT, SPState.expand, if_neg h]

theorem inv_expandT {G : Graph W} {s : SPState W}
    (hw : ∀ a b, 0 ≤ G.w a b) (hInv : Inv G s) : Inv G (expandT G s) := by
  rcases hInv.phaseOk with hact | hfin
  · rcases expand_ok hInv hact with ⟨i, anc, d, Q, hp, -, hT⟩
    rw [hT]
    exact inv_expandAux hw hInv hp
  · rw [expandT_not_active (by rw [hfin]; intro h; cases h)]
    exact hInv

theorem inv_stepN {G : Graph W} {s : SPState W}
    (hw : ∀ a b, 0 ≤ G.w a b) (hInv : Inv G s) (k : Nat) :
    Inv G (stepN G k s) := by
  induction k generalizing s with
  | zero => exact hInv
  | succ k ih => exact ih (inv_expandT hw hInv)

theorem stepN_succ_right (G : Graph W) (k : Nat) (s : SPState W) :
    stepN G (k+1) s = expandT G (stepN G k s) := by
  induction k generalizing s with
  | zero => rfl
  | succ k ih =>
    rw [show stepN G (k+1+1) s = stepN G (k+1) (expandT G s) from rfl, ih,
      show stepN G (k+1) s = stepN G k (expandT G s) from rfl]

theorem stepN_add (G : Graph W) (k m : Nat) (s : SPState W) :
    stepN G (k + m) s = stepN G m (stepN G k s) := by
  induction m with
  | zero => rfl
  | succ m ih =>
    rw [show k + (m+1) = (k+m)+1 from rfl, stepN_succ_right, ih,
      stepN_succ_right]

theorem settle_step {G : Graph W} {s : SPState W} (hInv : Inv G s)
    (hact : s.phase = Phase.active) :
    ∃ e, (expandT G s).hist = e :: s.hist ∧
      SPState.current (expandT G s) = Except.ok e ∧
      (expandT G s).src = s.src := by
  rcases expand_ok hInv hact with ⟨i, anc, d, Q, hp, -, hT⟩
  have hph : ¬ (expandT G s).phase = Phase.unseeded := by
    rw [hT, expandAux_phase]
    by_cases hE : (s.expandAux G i anc d Q).frontier.isEmpty
    · rw [if_pos hE]
      intro hc; cases hc
    · rw [if_neg hE]
      intro hc; cases hc
  refine ⟨(i, anc, d), by rw [hT, expandAux_hist], ?_,
    by rw [hT, expandAux_src]⟩
  rw [SPState.current, if_neg hph, hT]
  rfl

theorem find?_fst_eq {h : List (SPNode W)}
    (hnd : (h.map (fun e => e.1)).Nodup) {e : SPNode W} (he : e ∈ h) :
    h.find? (fun x => x.1 == e.1) = some e := by
  induction h with
  | nil => cases he
  | cons a t ih =>
    have hnd' : a.1 ∉ t.map (fun e => e.1) ∧
        (t.map (fun e => e.1)).Nodup := by
      rw [List.map_cons] at hnd
      exact List.nodup_cons.mp hnd
    rcases List.mem_cons.mp he with h1 | h1
    · subst h1
      exact List.find?_cons_of_pos _ (by simp)
    · have hne : ¬ ((fun x => x.1 == e.1) a = true) := by
        simp only [beq_iff_eq]
        intro hc
        exact hnd'.1 (hc ▸ List.mem_map.mpr ⟨e, h1, rfl⟩)
      rw [@List.find?_cons_of_neg _ (fun x => x.1 == e.1) a t hne]
      exact ih hnd'.2 h1

theorem ancOf_eq {G : Graph W} {s : SPState W} (hInv : Inv G s)
    {e : SPNode W} (he : e ∈ s.hist) : s.ancOf e.1 = e.2.1 := by
  rw [SPState.ancOf, find?_fst_eq hInv.nodup he]

theorem histD_entry {G : Graph W} {s : SPState W} (hInv : Inv G s)
    {e : SPNode W} (he : e ∈ s.hist) : histD s.hist e.1 = some e.2.2 := by
  rw [histD, find?_fst_eq hInv.nodup he]
  rfl

theorem distance_entry {G : Graph W} {s : SPState W} (hInv : Inv G s)
    {e : SPNode W} (he : e ∈ s.hist) :
    SPState.distance s e.1 = ((e.2.2 : W) : WithTop W) := by
  rw [SPState.distance, if_pos
    (show s.isVisited e.1 = true from visitedIn_iff.mpr ⟨e, he, rfl⟩)]
  exact hInv.histTent e he

theorem visited_expandT {G : Graph W} {s : SPState W} (hInv : Inv G s)
    {i : Nat} (hv : s.isVisited i = true) :
    (expandT G s).isVisited i = true ∧
      SPState.distance (expandT G s) i = SPState.distance s i := by
  rcases hInv.phaseOk with hact | hfin
  · rcases expand_ok hInv hact with ⟨i0, anc, d, Q, hp, -, hT⟩
    rcases popped_facts hInv hp with ⟨hmem, hfresh, -, -, htent, -⟩
    have hvin : visitedIn s.hist i = true := hv
    have hv' : visitedIn ((i0, anc, d) :: s.hist) i = true :=
      visitedIn_cons_of hvin
    have hlen0 : ∀ p ∈ G.neighbors i0,
        p.1 < (s.tent.set i0 ((d : W) : WithTop W)).length := by
      intro p hp'
      rw [List.length_set, hInv.tlen]
      exact (neighbors_fst_lt hp').1
    have hvis1 : (expandT G s).isVisited i = true := by
      rw [hT]
      show visitedIn ((s.expandAux G i0 anc d Q).hist) i = true
      rw [expandAux_hist]
      exact hv'
    refine ⟨hvis1, ?_⟩
    rw [SPState.distance, SPState.distance, if_pos hvis1, if_pos hv, hT,
      expandAux_tent, relax_vis_stable _ _ _ _ _ _ hlen0 _ hv',
      tent_set_popped hInv (hInv.frLt _ hmem) htent i]
  · rw [expandT_not_active (by rw [hfin]; intro hc; cases hc)]
    exact ⟨hv, rfl⟩

theorem visited_stepN {G : Graph W} {s : SPState W}
    (hw : ∀ a b, 0 ≤ G.w a b) (hInv : Inv G s) {i : Nat}
    (hv : s.isVisited i = true) (k : Nat) :
    (stepN G k s).isVisited i = true ∧
      SPState.distance (stepN G k s) i = SPState.distance s i := by
  induction k generalizing s with
  | zero => exact ⟨hv, rfl⟩
  | succ k ih =>
    rcases visited_expandT hInv hv with ⟨h1, h2⟩
    rcases ih (inv_expandT hw hInv) h1 with ⟨h3, h4⟩
    exact ⟨h3, by rw [show stepN G (k+1) s = stepN G k (expandT G s) from rfl,
      h4, h2]⟩

theorem hist_len_le {G : Graph W} {s : SPState W} (hInv : Inv G s) :
    s.hist.length ≤ G.n := by
  have h1 : (s.hist.map (fun e => e.1)) ⊆ List.range G.n := by
    intro x hx
    rcases List.mem_map.mp hx with ⟨e, he, hex⟩
    rw [List.mem_range, ← hex]
    exact hInv.histLt e he
  have h2 := (hInv.nodup.subperm h1).length_le
  rw [List.length_map, List.length_range] at h2
  exact h2

theorem all_visited_of_len {G : Graph W} {s : SPState W} (hInv : Inv G s)
    (hlen : s.hist.length = G.n) :
    ∀ j, j < G.n → visitedIn s.hist j = true := by
  intro j hj
  have hsub : (s.hist.map (fun e => e.1)) ⊆ List.range G.n := by
    intro x hx
    rcases List.mem_map.mp hx with ⟨e, he, hex⟩
    rw [List.mem_range, ← hex]
    exact hInv.histLt e he
  rcases hInv.nodup.subperm hsub with ⟨l, hlperm, hlsub⟩
  have hll : l.length = (List.range G.n).length := by
    rw [hlperm.length_eq, List.length_map, hlen, List.length_range]
  have hleq : l = List.range G.n := hlsub.eq_of_length hll
  have hjmem : j ∈ s.hist.map (fun e => e.1) := by
    rw [← hlperm.mem_iff, hleq, List.mem_range]
    exact hj
  rcases List.mem_map.mp hjmem with ⟨e, he, hej⟩
  exact visitedIn_iff.mpr ⟨e, he, hej⟩

theorem active_imp_len {G : Graph W} {src : Nat}
    (hw : ∀ a b, 0 ≤ G.w a b) (hsrc : src < G.n) :
    ∀ k, (stepN G k (initOn G src)).phase = Phase.active →
      (stepN G k (initOn G src)).hist.length = k := by
  intro k
  induction k with
  | zero => intro h; rfl
  | succ k ih =>
    intro hact
    rw [stepN_succ_right] at hact ⊢
    have hInvk : Inv G (stepN G k (initOn G src)) :=
      inv_stepN hw (inv_initOn G src hsrc) k
    rcases hInvk.phaseOk with ha | hf
    · rcases settle_step hInvk ha with ⟨e, hh, -, -⟩
      rw [hh, List.length_cons, ih ha]
    · rw [expandT_not_active (by rw [hf]; intro hc; cases hc)] at hact
      rw [hf] at hact
      cases hact

theorem finished_stays {G : Graph W} {s : SPState W}
    (hfin : s.phase = Phase.finished) (k : Nat) : stepN G k s = s := by
  induction k with
  | zero => rfl
  | succ k ih =>
    rw [stepN_succ_right, ih,
      expandT_not_active (by rw [hfin]; intro hc; cases hc)]

theorem finish_exists {G : Graph W} {src : Nat}
    (hw : ∀ a b, 0 ≤ G.w a b) (hsrc : src < G.n) :
    (stepN G G.n (initOn G src)).phase = Phase.finished := by
  have hInvn := inv_stepN hw (inv_initOn G src hsrc) G.n
  rcases hInvn.phaseOk with ha | hf
  · exfalso
    have hlen := active_imp_len hw hsrc G.n ha
    have hne : (stepN G G.n (initOn G src)).frontier ≠ [] := by
      intro h
      have hc := hInvn.finIff.mpr h
      rw [ha] at hc
      cases hc
    rcases hq : (stepN G G.n (initOn G src)).frontier with - | ⟨f0, F⟩
    · exact hne hq
    · have hf0 : f0 ∈ (stepN G G.n (initOn G src)).frontier := by
        rw [hq]
        exact List.mem_cons_self _ _
      have hfresh := hInvn.frFresh f0 hf0
      have hflt := hInvn.frLt f0 hf0
      have hvis := all_visited_of_len hInvn hlen f0.1 hflt
      rw [hvis] at hfresh
      cases hfresh
  · exact hf

theorem finished_reach_visited {G : Graph W} {s : SPState W}
    (hInv : Inv G s) (hfin : s.phase = Phase.finished) :
    ∀ j, Reach G s.src j → visitedIn s.hist j = true := by
  intro j hr
  induction hr with
  | base =>
    have hne := hInv.histNe hfin
    rcases hq : s.hist.getLast? with - | e
    · rw [List.getLast?_eq_none_iff] at hq
      exact absurd hq hne
    · have hes := hInv.lastSrc e hq
      exact visitedIn_iff.mpr ⟨e, List.mem_of_mem_getLast? hq, hes⟩
  | step hri hjlt hjne hadj ih =>
    rcases visitedIn_iff.mp ih with ⟨e, he, hei⟩
    rcases hInv.cover e he _ hjlt (by rw [hei]; exact hjne)
      (by rw [hei]; exact hadj) with hv | ⟨f, hf, -⟩
    · exact hv
    · exfalso
      rw [hInv.finIff.mp hfin] at hf
      cases hf

/-! ### Path reconstruction -/

theorem pathAux_spec (G : Graph W) (src : Nat) (anc : Nat → Nat) :
    ∀ (h : List (SPNode W)),
      (∀ e ∈ h, anc e.1 = e.2.1) →
      ancWell G h →
      (h.map (fun e => e.1)).Nodup →
      (∀ e, h.getLast? = some e → e.1 = src) →
      ∀ e ∈ h, ∀ fuel, h.length ≤ fuel →
        (pathAux anc src fuel e.1).head? = some e.1 ∧
        (pathAux anc src fuel e.1).getLast? = some src ∧
        List.Chain' (fun x y => G.adj y x = true) (pathAux anc src fuel e.1) ∧
        pathCost G (pathAux anc src fuel e.1) = e.2.2 ∧
        (pathAux anc src fuel e.1).Nodup ∧
        (∀ x ∈ pathAux anc src fuel e.1, ∃ e' ∈ h, e'.1 = x) := by
  intro h
  induction h with
  | nil =>
    intro _ _ _ _ e he
    cases he
  | cons hd t ih =>
    intro hanc hwell hnd hlast e he fuel hfuel
    have hnd2 : hd.1 ∉ t.map (fun e => e.1) ∧
        (t.map (fun e => e.1)).Nodup := by
      rw [List.map_cons] at hnd
      exact List.nodup_cons.mp hnd
    have hanc' : ∀ e' ∈ t, anc e'.1 = e'.2.1 :=
      fun e' he' => hanc e' (List.mem_cons_of_mem _ he')
    have hwell' : ancWell G t := hwell.2
    have hlast' : ∀ e', t.getLast? = some e' → e'.1 = src := by
      intro e' he'
      cases t with
      | nil => cases he'
      | cons c t' =>
        exact hlast e' (by rw [List.getLast?_cons_cons]; exact he')
    rcases List.mem_cons.mp he with h1 | h1
    · subst h1
      cases fuel with
      | zero => exact absurd hfuel (by simp)
      | succ m =>
        cases t with
        | nil =>
          rcases hwell.1 with ⟨-, -, hd0⟩ | ⟨e', he', -⟩
          · have hsrc : e.1 = src := hlast e rfl
            rw [pathAux, if_pos hsrc]
            refine ⟨rfl, by rw [hsrc]; rfl, List.chain'_singleton _, ?_,
              List.nodup_singleton _, ?_⟩
            · rw [hd0]
              rfl
            · intro x hx
              rcases List.mem_singleton.mp hx with h
              exact ⟨e, List.mem_cons_self _ _, h.symm⟩
          · cases he'
        | cons c t' =>
          rcases hwell.1 with ⟨htnil, -, -⟩ | ⟨e', he', he'1, hadj, hne, hd2⟩
          · exact absurd htnil (List.cons_ne_nil _ _)
          · have hnsrc : ¬ e.1 = src := by
              rcases hq : (c :: t').getLast? with - | eL
              · rw [List.getLast?_eq_none_iff] at hq
                exact absurd hq (List.cons_ne_nil _ _)
              · have hLsrc : eL.1 = src :=
                  hlast eL (by rw [List.getLast?_cons_cons]; exact hq)
                have hLmem : eL ∈ c :: t' := List.mem_of_mem_getLast? hq
                intro hc
                exact hnd2.1 (by
                  rw [hc, ← hLsrc]
                  exact List.mem_map.mpr ⟨eL, hLmem, rfl⟩)
            have hm : (c :: t').length ≤ m := Nat.succ_le_succ_iff.mp hfuel
            obtain ⟨hh, hl, hc, hcost, hndp, hcont⟩ :=
              ih hanc' hwell' hnd2.2 hlast' e' he' m hm
            rw [pathAux, if_neg hnsrc, hanc e (List.mem_cons_self _ _),
              ← he'1]
            rcases hq2 : pathAux anc src m e'.1 with - | ⟨x, rest⟩
            · rw [hq2] at hh
              cases hh
            · rw [hq2] at hh hl hc hcost hndp hcont
              have hx : x = e'.1 := by simpa using hh
              refine ⟨rfl, by rw [List.getLast?_cons_cons]; exact hl, ?_, ?_,
                ?_, ?_⟩
              · rw [List.chain'_cons]
                refine ⟨?_, hc⟩
                rw [hx, he'1]
                exact hadj
              · show G.w x e.1 + pathCost G (x :: rest) = e.2.2
                rw [hcost, hd2, hx, he'1]
                exact add_comm _ _
              · refine List.nodup_cons.mpr ⟨?_, hndp⟩
                intro hmem
                rcases hcont e.1 hmem with ⟨e'', he'', he''1⟩
                exact hnd2.1 (he''1 ▸ List.mem_map.mpr ⟨e'', he'', rfl⟩)
              · intro y hy
                rcases List.mem_cons.mp hy with h2 | h2
                · exact ⟨e, List.mem_cons_self _ _, h2.symm⟩
                · rcases hcont y h2 with ⟨e'', he'', he''1⟩
                  exact ⟨e'', List.mem_cons_of_mem _ he'', he''1⟩
    · have hm : t.length ≤ fuel :=
        le_trans (Nat.le_succ _) hfuel
      obtain ⟨hh, hl, hc, hcost, hndp, hcont⟩ :=
        ih hanc' hwell' hnd2.2 hlast' e h1 fuel hm
      exact ⟨hh, hl, hc, hcost, hndp, fun x hx =>
        (hcont x hx).elim (fun e'' he'' =>
          ⟨e'', List.mem_cons_of_mem _ he''.1, he''.2⟩)⟩

/-- The specification of `pathToSource` on a visited index of an
invariant-satisfying state. -/
theorem pathToSource_spec {G : Graph W} {s : SPState W} (hInv : Inv G s)
    {i : Nat} (hv : s.isVisited i = true) :
    ∃ p, s.pathToSource i = Except.ok p ∧
      p.head? = some i ∧ p.getLast? = some s.src ∧
      List.Chain' (fun x y => G.adj y x = true) p ∧
      SPState.distance s i = ((pathCost G p : W) : WithTop W) ∧
      p.Nodup ∧ (∀ x ∈ p, visitedIn s.hist x = true) := by
  rcases visitedIn_iff.mp hv with ⟨e, he, hei⟩
  have hanc : ∀ e' ∈ s.hist, s.ancOf e'.1 = e'.2.1 :=
    fun e' he' => ancOf_eq hInv he'
  obtain ⟨hh, hl, hc, hcost, hndp, hcont⟩ :=
    pathAux_spec G s.src s.ancOf s.hist hanc hInv.ancW hInv.nodup
      hInv.lastSrc e he s.hist.length (le_refl _)
  subst hei
  refine ⟨pathAux s.ancOf s.src s.hist.length e.1, ?_, hh, hl, hc, ?_,
    hndp, ?_⟩
  · rw [SPState.pathToSource, if_pos hv]
  · rw [distance_entry hInv he, hcost]
  · intro x hx
    rcases hcont x hx with ⟨e'', he'', he''1⟩
    exact visitedIn_iff.mpr ⟨e'', he'', he''1⟩

theorem src_stepN {G : Graph W} {src : Nat} (hw : ∀ a b, 0 ≤ G.w a b)
    (hsrc : src < G.n) (k : Nat) :
    (stepN G k (initOn G src)).src = src := by
  induction k with
  | zero => rfl
  | succ k ih =>
    rw [stepN_succ_right]
    have hInvk := inv_stepN hw (inv_initOn G src hsrc) k
    rcases hInvk.phaseOk with ha | hf
    · rcases settle_step hInvk ha with ⟨e, -, -, hsrc'⟩
      rw [hsrc', ih]
    · rw [expandT_not_active (by rw [hf]; intro hc; cases hc), ih]

theorem chainG_w_nonneg : ∀ a b, (0 : ℤ) ≤ chainG.w a b :=
  fun _ _ => (by decide : (0 : ℤ) ≤ 1)

/-- C2.  For every run of a single engine instance, the sequence of
`distance` values carried across successive settle events (the values
reported by `current()` after each successful `expand()`) is monotonically
non-decreasing. -/
theorem claim_C2 (G : Graph W) (src k : Nat) (hsrc : src < G.n)
    (hw : ∀ a b, 0 ≤ G.w a b) :
    List.Pairwise (fun a b => a ≤ b)
      (((stepN G k (initOn G src)).hist.reverse).map (fun e => e.2.2)) := by
  rw [List.pairwise_map, List.pairwise_reverse]
  exact (inv_stepN hw (inv_initOn G src hsrc) k).histMono

/-- Witness for C2 on the 5-point chain graph with unit weights. -/
theorem claim_C2_witness :
    List.Pairwise (fun a b => a ≤ b)
      (((stepN chainG 7 (initOn chainG 0)).hist.reverse).map
        (fun e => e.2.2)) :=
  claim_C2 chainG 0 7 (by decide) chainG_w_nonneg

/-- C3.  For every visited index `i` of a run, `pathToSource i` returns a
sequence starting at `i`, ending at the source, whose consecutive elements
are joined by graph (tangency) edges, and whose total edge weight equals
`distance(i)` exactly (the exact-arithmetic counterpart of the
floating-point-tolerance phrasing). -/
theorem claim_C3 (G : Graph W) (src k i : Nat) (p : List Nat)
    (hsrc : src < G.n) (hw : ∀ a b, 0 ≤ G.w a b)
    (hpath : (stepN G k (initOn G src)).pathToSource i = Except.ok p) :
    p.head? = some i ∧ p.getLast? = some src ∧
    List.Chain' (fun x y => G.adj y x = true) p ∧
    SPState.distance (stepN G k (initOn G src)) i
      = ((pathCost G p : W) : WithTop W) := by
  have hInvk := inv_stepN hw (inv_initOn G src hsrc) k
  have hv : (stepN G k (initOn G src)).isVisited i = true := by
    by_cases h : (stepN G k (initOn G src)).isVisited i = true
    · exact h
    · rw [SPState.pathToSource, if_neg h] at hpath
      cases hpath
  rcases pathToSource_spec hInvk hv with ⟨p', hp', hh, hl, hc, hd, -, -⟩
  rw [hpath] at hp'
  have hpp : p = p' := by simpa using hp'
  subst hpp
  rw [src_stepN hw hsrc k] at hl
  exact ⟨hh, hl, hc, hd⟩

/-- Witness for C3: on the 5-point chain seeded at `0`, the path from `4`
is `[4, 3, 2, 1, 0]` with total weight equal to `distance 4 = 4`. -/
theorem claim_C3_witness :
    ([4, 3, 2, 1, 0] : List Nat).head? = some 4 ∧
    ([4, 3, 2, 1, 0] : List Nat).getLast? = some 0 ∧
    List.Chain' (fun x y => chainG.adj y x = true) [4, 3, 2, 1, 0] ∧
    SPState.distance (stepN chainG 5 (initOn chainG 0)) 4
      = ((pathCost chainG [4, 3, 2, 1, 0] : ℤ) : WithTop ℤ) :=
  claim_C3 chainG 0 5 4 [4, 3, 2, 1, 0] (by decide) chainG_w_nonneg
    (by decide)

/-- C6.  `pathToSource(i)` succeeds exactly when `isVisited(i)`; on an
unvisited index it fails with the `NotVisited` error (the state, a pure
value, is left untouched by the query); on success the returned sequence is
ordered target-to-source. -/
theorem claim_C6 (G : Graph W) (src k i : Nat) (hsrc : src < G.n)
    (hw : ∀ a b, 0 ≤ G.w a b) :
    (((stepN G k (initOn G src)).pathToSource i).isOk
        = (stepN G k (initOn G src)).isVisited i) ∧
    ((stepN G k (initOn G src)).isVisited i = false →
      (stepN G k (initOn G src)).pathToSource i
        = Except.error SPErr.notVisited) ∧
    (∀ p, (stepN G k (initOn G src)).pathToSource i = Except.ok p →
      p.head? = some i ∧ p.getLast? = some src) := by
  have hInvk := inv_stepN hw (inv_initOn G src hsrc) k
  have herr : (stepN G k (initOn G src)).isVisited i = false →
      (stepN G k (initOn G src)).pathToSource i
        = Except.error SPErr.notVisited := by
    intro hv
    rw [SPState.pathToSource, if_neg (by rw [hv]; intro hc; cases hc)]
  refine ⟨?_, herr, ?_⟩
  · by_cases hv : (stepN G k (initOn G src)).isVisited i = true
    · rw [SPState.pathToSource, if_pos hv, hv]
      rfl
    · have hv' := Bool.not_eq_true _ ▸ hv
      rw [herr hv', hv']
      rfl
  · intro p hp
    have hv : (stepN G k (initOn G src)).isVisited i = true := by
      by_cases hb : (stepN G k (initOn G src)).isVisited i = true
      · exact hb
      · rw [SPState.pathToSource, if_neg hb] at hp
        cases hp
    rcases pathToSource_spec hInvk hv with ⟨p', hp', hh, hl, -, -, -, -⟩
    rw [hp] at hp'
    have hpp : p = p' := by simpa using hp'
    subst hpp
    rw [src_stepN hw hsrc k] at hl
    exact ⟨hh, hl⟩

/-- Witness for C6: on the 5-point chain after two expansions, index `4` is
not yet visited and `pathToSource` fails with `NotVisited`; index `1` is
visited and the query succeeds. -/
theorem claim_C6_witness :
    (((stepN chainG 2 (initOn chainG 0)).pathToSource 4).isOk
        = (stepN chainG 2 (initOn chainG 0)).isVisited 4) ∧
    ((stepN chainG 2 (initOn chainG 0)).pathToSource 4
        = Except.error SPErr.notVisited) :=
  ⟨(claim_C6 chainG 0 2 4 (by decide) chainG_w_nonneg).1,
    (claim_C6 chainG 0 2 4 (by decide) chainG_w_nonneg).2.1
      (by decide)⟩

/-- C8.  `distance(i)` returns the fixed `infinity()` sentinel on an
unvisited index — it is a total query that raises no error — and once `i`
is settled its value never changes across any number of further
`expand()` steps. -/
theorem claim_C8 (G : Graph W) (src k m i : Nat) (hsrc : src < G.n)
    (hw : ∀ a b, 0 ≤ G.w a b) :
    ((stepN G k (initOn G src)).isVisited i = false →
      SPState.distance (stepN G k (initOn G src)) i
        = SPState.infinity (stepN G k (initOn G src))) ∧
    ((stepN G k (initOn G src)).isVisited i = true →
      SPState.distance (stepN G (k + m) (initOn G src)) i
        = SPState.distance (stepN G k (initOn G src)) i) := by
  constructor
  · intro hv
    rw [SPState.distance, if_neg (by rw [hv]; intro hc; cases hc)]
    rfl
  · intro hv
    rw [stepN_add]
    exact (visited_stepN hw (inv_stepN hw (inv_initOn G src hsrc) k) hv m).2

/-- Witness for C8 on the 5-point chain: after two expansions index `4` is
unvisited with distance `infinity()`; index `1` is visited and its distance
is unchanged three steps later. -/
theorem claim_C8_witness :
    (SPState.distance (stepN chainG 2 (initOn chainG 0)) 4
        = SPState.infinity (stepN chainG 2 (initOn chainG 0))) ∧
    (SPState.distance (stepN chainG (2 + 3) (initOn chainG 0)) 1
        = SPState.distance (stepN chainG 2 (initOn chainG 0)) 1) :=
  ⟨(claim_C8 chainG 0 2 3 4 (by decide) chainG_w_nonneg).1 (by decide),
    (claim_C8 chainG 0 2 3 1 (by decide) chainG_w_nonneg).2 (by decide)⟩

/-- C9.  `current()` returns the most recently settled node as an
`(Index, ancestorIndex, distance)` tuple; before `init` both `expand()` and
`current()` fail with `InvalidState` (before the first `expand()` the value
of `current()` is undefined, i.e. unconstrained); calling `init` a second
time — on any state of a seeded run — fails with `InvalidState`. -/
theorem claim_C9 (G : Graph W) (src src' k : Nat) (hsrc : src < G.n)
    (hw : ∀ a b, 0 ≤ G.w a b) :
    ((stepN G k (initOn G src)).init src' = Except.error SPErr.invalidState) ∧
    ((makeShortestPaths W G.n).expand G = Except.error SPErr.invalidState) ∧
    ((makeShortestPaths W G.n).current = Except.error SPErr.invalidState) ∧
    ((stepN G k (initOn G src)).phase = Phase.active →
      ∃ e, (stepN G (k+1) (initOn G src)).hist
            = e :: (stepN G k (initOn G src)).hist ∧
        SPState.current (stepN G (k+1) (initOn G src)) = Except.ok e) := by
  have hInvk := inv_stepN hw (inv_initOn G src hsrc) k
  refine ⟨?_, rfl, rfl, ?_⟩
  · rw [SPState.init, if_neg]
    rcases hInvk.phaseOk with h | h <;> rw [h] <;> intro hc <;> cases hc
  · intro hact
    rw [stepN_succ_right]
    rcases settle_step hInvk hact with ⟨e, h1, h2, -⟩
    exact ⟨e, h1, h2⟩

/-- Witness for C9 on the 5-point chain: re-initializing after three
expansions fails with `InvalidState`, and the fourth expansion settles a
node which `current()` then reports. -/
theorem claim_C9_witness :
    ((stepN chainG 3 (initOn chainG 0)).init 2
        = Except.error SPErr.invalidState) ∧
    (∃ e, (stepN chainG 4 (initOn chainG 0)).hist
          = e :: (stepN chainG 3 (initOn chainG 0)).hist ∧
      SPState.current (stepN chainG 4 (initOn chainG 0)) = Except.ok e) :=
  ⟨(claim_C9 chainG 0 2 3 (by decide) chainG_w_nonneg).1,
    (claim_C9 chainG 0 2 3 (by decide) chainG_w_nonneg).2.2.2
      (by decide)⟩

/-- C1.  For every graph (hence every point set presented through the
injected oracle, with non-negative Euclidean-length weights) and every
source index: `init` succeeds on a fresh engine and sets
`distance[source] = 0` in the internal map; driving `expand()` reaches
Finished after exactly `N` calls, the engine being Active beforehand, where
the settle history at that point enumerates (without repetition) precisely
the points reachable from the source — so `N` is the number of reachable
points — and every unreachable point still reports the `infinity()`
sentinel. -/
theorem claim_C1 (G : Graph W) (src : Nat) (hsrc : src < G.n)
    (hw : ∀ a b, 0 ≤ G.w a b) :
    (makeShortestPaths W G.n).init src = Except.ok (initOn G src)
    ∧ (initOn G src).tent.getD src ⊤ = ((0 : W) : WithTop W)
    ∧ ∃ N, N ≤ G.n ∧
        (stepN G N (initOn G src)).phase = Phase.finished ∧
        (∀ k, k < N → (stepN G k (initOn G src)).phase = Phase.active) ∧
        (stepN G N (initOn G src)).hist.length = N ∧
        ((stepN G N (initOn G src)).hist.map (fun e => e.1)).Nodup ∧
        (∀ j, visitedIn (stepN G N (initOn G src)).hist j = true ↔
          Reach G src j) ∧
        (∀ j, ¬ Reach G src j →
          SPState.distance (stepN G N (initOn G src)) j
            = SPState.infinity (stepN G N (initOn G src))) := by
  have hfin := finish_exists hw hsrc
  have hex : ∃ k, (stepN G k (initOn G src)).phase = Phase.finished :=
    ⟨G.n, hfin⟩
  have hact : ∀ k, k < Nat.find hex →
      (stepN G k (initOn G src)).phase = Phase.active := by
    intro k hk
    have hnf := Nat.find_min hex hk
    rcases (inv_stepN hw (inv_initOn G src hsrc) k).phaseOk with h | h
    · exact h
    · exact absurd h hnf
  have hN0 : Nat.find hex ≠ 0 := by
    intro h0
    have hsp := Nat.find_spec hex
    rw [h0] at hsp
    have h2 : Phase.active = Phase.finished := hsp
    cases h2
  obtain ⟨M, hM⟩ := Nat.exists_eq_succ_of_ne_zero hN0
  have hlen : (stepN G (Nat.find hex) (initOn G src)).hist.length
      = Nat.find hex := by
    rw [hM, stepN_succ_right]
    have haM : (stepN G M (initOn G src)).phase = Phase.active :=
      hact M (by rw [hM]; exact Nat.lt_succ_self M)
    rcases settle_step (inv_stepN hw (inv_initOn G src hsrc) M) haM
      with ⟨e, hh, -, -⟩
    rw [hh, List.length_cons, active_imp_len hw hsrc M haM]
  have hInvN := inv_stepN hw (inv_initOn G src hsrc) (Nat.find hex)
  have hiff : ∀ j, visitedIn (stepN G (Nat.find hex) (initOn G src)).hist j
      = true ↔ Reach G src j := by
    intro j
    constructor
    · intro hv
      rcases visitedIn_iff.mp hv with ⟨e, he, hei⟩
      have hr := hInvN.histReach e he
      rw [src_stepN hw hsrc] at hr
      exact hei ▸ hr
    · intro hr
      apply finished_reach_visited hInvN (Nat.find_spec hex)
      rw [src_stepN hw hsrc]
      exact hr
  refine ⟨init_mk_ok G src, ?_, Nat.find hex, Nat.find_min' hex hfin,
    Nat.find_spec hex, hact, hlen, hInvN.nodup, hiff, ?_⟩
  · rw [initOn_tent G src src, if_pos ⟨rfl, hsrc⟩]
  · intro j hnr
    rw [SPState.distance, if_neg
      (show ¬ ((stepN G (Nat.find hex) (initOn G src)).isVisited j = true)
        from fun h => hnr ((hiff j).mp h))]
    rfl

/-- Witness for C1 on the 5-point chain seeded at `0`: the engine finishes
after exactly `N ≤ 5` expansions, active until then. -/
theorem claim_C1_witness :
    (0 : Nat) < chainG.n ∧
    ∃ N, N ≤ chainG.n ∧
      (stepN chainG N (initOn chainG 0)).phase = Phase.finished ∧
      (∀ k, k < N → (stepN chainG k (initOn chainG 0)).phase
        = Phase.active) ∧
      (stepN chainG N (initOn chainG 0)).hist.length = N :=
  ⟨by decide, by
    rcases claim_C1 chainG 0 (by decide) chainG_w_nonneg
      with ⟨-, -, N, h1, h2, h3, h4, -⟩
    exact ⟨N, h1, h2, h3, h4⟩⟩

theorem bidirLoop_succ (G : Graph W) (fuel : Nat) (S0 S1 : SPState W) :
    bidirLoop G (fuel+1) S0 S1 =
      if S0.finished || S1.finished then none
      else if (expandT G S0).isVisited S1.currentD.1 then
        match (expandT G S0).pathToSource S1.currentD.1,
              (expandT G S1).pathToSource S1.currentD.1 with
        | Except.ok c0, Except.ok c1 => some (splice c0 c1)
        | _, _ => none
      else bidirLoop G fuel (expandT G S0) (expandT G S1) := rfl

/-- C4.  When two engine instances seeded at two sources are expanded
alternately by the driver loop of `shortestPaths3D.cpp`, the loop stops as
soon as the first search has visited the node most recently settled by the
second (the meeting node `m`, visited by both searches at that moment), and
the spliced sequence — the first partial path reversed, the duplicated
meeting node dropped, the second partial path appended — is a single path
from one source to the other containing the meeting node exactly once.
(Whether this spliced path is globally shortest is not claimed.) -/
theorem claim_C4 (G : Graph W) (src0 src1 : Nat) (hs0 : src0 < G.n)
    (hs1 : src1 < G.n) (hw : ∀ a b, 0 ≤ G.w a b)
    (hadj : ∀ a b, G.adj a b = G.adj b a) (fuel : Nat) (Q : List Nat)
    (hloop : bidirLoop G fuel (initOn G src0) (initOn G src1) = some Q) :
    ∃ m k c0 c1,
      (stepN G k (initOn G src0)).isVisited m = true ∧
      (stepN G k (initOn G src1)).isVisited m = true ∧
      (stepN G k (initOn G src0)).pathToSource m = Except.ok c0 ∧
      (stepN G k (initOn G src1)).pathToSource m = Except.ok c1 ∧
      Q = splice c0 c1 ∧
      Q.count m = 1 ∧ Q.head? = some src0 ∧ Q.getLast? = some src1 ∧
      List.Chain' (fun x y => G.adj x y = true) Q := by
  have himp : ∀ a b : Nat, G.adj b a = true → G.adj a b = true := by
    intro a b hab
    rw [hadj]
    exact hab
  have main : ∀ fl t Q',
      bidirLoop G fl (stepN G t (initOn G src0))
        (stepN G t (initOn G src1)) = some Q' →
      ∃ m k c0 c1,
        (stepN G k (initOn G src0)).isVisited m = true ∧
        (stepN G k (initOn G src1)).isVisited m = true ∧
        (stepN G k (initOn G src0)).pathToSource m = Except.ok c0 ∧
        (stepN G k (initOn G src1)).pathToSource m = Except.ok c1 ∧
        Q' = splice c0 c1 ∧
        Q'.count m = 1 ∧ Q'.head? = some src0 ∧ Q'.getLast? = some src1 ∧
        List.Chain' (fun x y => G.adj x y = true) Q' := by
    intro fl
    induction fl with
    | zero =>
      intro t Q' h
      cases h
    | succ fl ih =>
      intro t Q' h
      rw [bidirLoop_succ] at h
      by_cases hfin : ((stepN G t (initOn G src0)).finished
          || (stepN G t (initOn G src1)).finished) = true
      · rw [if_pos hfin] at h
        cases h
      · rw [if_neg hfin, ← stepN_succ_right G t (initOn G src0),
          ← stepN_succ_right G t (initOn G src1)] at h
        by_cases hmeet : (stepN G (t+1) (initOn G src0)).isVisited
            ((stepN G t (initOn G src1)).currentD.1) = true
        · rw [if_pos hmeet] at h
          rcases hc0 : (stepN G (t+1) (initOn G src0)).pathToSource
              ((stepN G t (initOn G src1)).currentD.1) with e0 | c0 <;>
            rcases hc1 : (stepN G (t+1) (initOn G src1)).pathToSource
              ((stepN G t (initOn G src1)).currentD.1) with e1 | c1 <;>
            rw [hc0, hc1] at h <;> cases h
          have hInv0 := inv_stepN hw (inv_initOn G src0 hs0) (t+1)
          have hInv1 := inv_stepN hw (inv_initOn G src1 hs1) (t+1)
          have hv1 : (stepN G (t+1) (initOn G src1)).isVisited
              ((stepN G t (initOn G src1)).currentD.1) = true := by
            by_cases hb : (stepN G (t+1) (initOn G src1)).isVisited
                ((stepN G t (initOn G src1)).currentD.1) = true
            · exact hb
            · rw [SPState.pathToSource, if_neg hb] at hc1
              cases hc1
          rcases pathToSource_spec hInv0 hmeet
            with ⟨p0, hp0, hh0, hl0, hch0, -, hnd0, -⟩
          rcases pathToSource_spec hInv1 hv1
            with ⟨p1, hp1, hh1, hl1, hch1, -, hnd1, -⟩
          rw [hc0] at hp0
          rw [hc1] at hp1
          have hpc0 : c0 = p0 := by simpa using hp0
          have hpc1 : c1 = p1 := by simpa using hp1
          subst hpc0
          subst hpc1
          rw [src_stepN hw hs0] at hl0
          rw [src_stepN hw hs1] at hl1
          rcases hsh0 : c0 with - | ⟨a0, t0⟩
          · rw [hsh0] at hh0
            cases hh0
          rcases hsh1 : c1 with - | ⟨a1, t1⟩
          · rw [hsh1] at hh1
            cases hh1
          rw [hsh0] at hh0 hl0 hch0 hnd0
          rw [hsh1] at hh1 hl1 hch1 hnd1
          have ha0 : a0 = (stepN G t (initOn G src1)).currentD.1 := by
            simpa using hh0
          have ha1 : a1 = (stepN G t (initOn G src1)).currentD.1 := by
            simpa using hh1
          subst ha0
          subst ha1
          refine ⟨(stepN G t (initOn G src1)).currentD.1, t+1, c0, c1,
            hmeet, hv1, hc0, hc1, by rw [hsh0, hsh1], ?_, ?_, ?_, ?_⟩ <;>
            rw [splice, List.reverse_cons, List.dropLast_concat]
          · rw [List.count_append, List.count_reverse,
              List.count_cons_self,
              List.count_eq_zero.mpr (List.nodup_cons.mp hnd0).1,
              List.count_eq_zero.mpr (List.nodup_cons.mp hnd1).1]
          · rcases t0 with - | ⟨b0, t0'⟩
            · have hms : (stepN G t (initOn G src1)).currentD.1 = src0 := by
                simpa using hl0
              simp only [List.reverse_nil, List.nil_append, List.head?_cons,
                hms]
            · rw [List.head?_append_of_ne_nil _ (by simp),
                List.head?_reverse]
              rw [List.getLast?_cons_cons] at hl0
              exact hl0
          · rw [List.getLast?_append_of_ne_nil _ (by simp)]
            exact hl1
          · rcases t0 with - | ⟨b0, t0'⟩
            · simp only [List.reverse_nil, List.nil_append]
              exact hch1.imp himp
            · refine List.Chain'.append ?_ (hch1.imp himp) ?_
              · rw [List.chain'_reverse]
                exact hch0.tail
              · intro x hx y hy
                rw [List.getLast?_reverse] at hx
                have hxa : b0 = x := by simpa using hx
                have hym : (stepN G t (initOn G src1)).currentD.1 = y := by
                  simpa using hy
                rw [← hxa, ← hym]
                exact (List.chain'_cons.mp hch0).1
        · rw [if_neg hmeet] at h
          exact ih (t+1) Q' h
  exact main fuel 0 Q hloop

theorem chainG_adj_symm : ∀ a b, chainG.adj a b = chainG.adj b a :=
  fun _ _ => Bool.or_comm _ _

/-- Witness for C4: on the 5-point chain, the two engines seeded at the
opposite ends meet and the driver loop returns the full spliced path
`[0, 1, 2, 3, 4]`, with the meeting node appearing exactly once. -/
theorem claim_C4_witness :
    (bidirLoop chainG 10 (initOn chainG 0) (initOn chainG 4)
      = some [0, 1, 2, 3, 4]) ∧
    ∃ m k c0 c1,
      (stepN chainG k (initOn chainG 0)).isVisited m = true ∧
      (stepN chainG k (initOn chainG 4)).isVisited m = true ∧
      (stepN chainG k (initOn chainG 0)).pathToSource m = Except.ok c0 ∧
      (stepN chainG k (initOn chainG 4)).pathToSource m = Except.ok c1 ∧
      ([0, 1, 2, 3, 4] : List Nat) = splice c0 c1 ∧
      List.count m ([0, 1, 2, 3, 4] : List Nat) = 1 ∧
      ([0, 1, 2, 3, 4] : List Nat).head? = some 0 ∧
      ([0, 1, 2, 3, 4] : List Nat).getLast? = some 4 ∧
      List.Chain' (fun x y => chainG.adj x y = true)
        ([0, 1, 2, 3, 4] : List Nat) :=
  ⟨by decide, claim_C4 chainG 0 4 (by decide) (by decide) chainG_w_nonneg
    chainG_adj_symm 10 [0, 1, 2, 3, 4] (by decide)⟩

end DGtalSpec
